import Mathlib

/-
Verification of the batch scheduler and ordered dispatch engine of the
squid indexing framework.

The development embeds, as executable Lean definitions:
  * the closed/open-ended block-height interval type `Range` together with
    intersection and difference (the `util/range` module; modelled from the
    spec, section 4.1, since only its callers are among the given sources);
  * a priority queue over batches (the `util/heap` module; modelled from
    the spec, section 4.2, as a list kept sorted by ascending `from`, which
    realises the spec's pop-the-minimum contract with stable ties);
  * the batch scheduler of the batcher module: `createBatches`,
    `mergeBatches`, `mergeDataHandlers`, `mergeMaps` over the
    `DataHandlers` aggregate, with JavaScript records embedded as
    association lists in insertion order;
  * the dispatch engine of `HandlerRunner`: `processBatch` over an explicit
    engine state (store, committed transactions, `lastBlock` watermark),
    and `processBlock` as a trace-producing function `processBlockTrace`
    listing the handler invocations of a block in execution order,
    together with its handler-selection helpers (`getEventHandlers`,
    `getCallHandlers`, `getEvmLogHandlers` and the EVM topic filter);
  * the configuration surface of `SubstrateProcessor`: the registration
    and setter methods, each guarded by `assertNotRunning`, embedded as
    `Except`-valued functions on an immutable processor value.

Handler callbacks are opaque: every aggregate is parametrised by the
handler type `H`. Theorems needed by the termination argument of the
well-founded merge loop necessarily precede its definition; the claims
themselves are settled by the theorems at the end of the file.
-/

/-- Inclusive block-height interval. Field `lo` embeds the source's `from`
and `hi` the source's `to` (both are reserved words in Lean); `hi = none`
means an open upper end. -/
structure Range where
  lo : Nat
  hi : Option Nat
deriving DecidableEq, Repr

def bleOpt (h : Nat) (t : Option Nat) : Bool :=
  match t with
  | none => true
  | some t' => h ≤ t'

def Range.containsH (r : Range) (h : Nat) : Bool :=
  decide (r.lo ≤ h) && bleOpt h r.hi

def Range.WF (r : Range) : Prop :=
  ∀ t, r.hi = some t → r.lo ≤ t

def minOpt : Option Nat → Option Nat → Option Nat
  | none, t => t
  | some a, none => some a
  | some a, some b => some (min a b)

/-- Modelled from the spec: section 4.1, `intersection(a, b)` of the missing
`util/range` module. Bounds are `from = max(a.from, b.from)`,
`to = min(a.to, b.to)` with an absent `to` treated as plus infinity; the
result is `none` when the computed `from` exceeds the computed `to`. -/
def rangeIntersection (a b : Range) : Option Range :=
  let f := max a.lo b.lo
  match minOpt a.hi b.hi with
  | none => some ⟨f, none⟩
  | some t => if f ≤ t then some ⟨f, some t⟩ else none

theorem containsH_iff (r : Range) (h : Nat) :
    r.containsH h = true ↔ r.lo ≤ h ∧ ∀ t, r.hi = some t → h ≤ t := by
  cases hr : r.hi <;> simp [Range.containsH, bleOpt, hr]

theorem rangeIntersection_bounds (a b i : Range)
    (hi : rangeIntersection a b = some i) :
    i.lo = max a.lo b.lo ∧ i.hi = minOpt a.hi b.hi := by
  simp only [rangeIntersection] at hi
  rcases hm : minOpt a.hi b.hi with _ | t <;> rw [hm] at hi
  · cases hi
    exact ⟨rfl, rfl⟩
  · simp only at hi
    split at hi
    · cases hi
      exact ⟨rfl, rfl⟩
    · cases hi

theorem minOpt_none_iff (x y : Option Nat) :
    minOpt x y = none ↔ x = none ∧ y = none := by
  cases x <;> cases y <;> simp [minOpt]

theorem minOpt_le_left (x y : Option Nat) (t : Nat) (hm : minOpt x y = some t) :
    ∀ tx, x = some tx → t ≤ tx := by
  rintro tx rfl
  cases y <;> simp only [minOpt] at hm <;> injection hm with hm <;> omega

theorem minOpt_le_right (x y : Option Nat) (t : Nat) (hm : minOpt x y = some t) :
    ∀ ty, y = some ty → t ≤ ty := by
  rintro ty rfl
  cases x <;> simp only [minOpt] at hm <;> injection hm with hm <;> omega

theorem containsH_inter (a b i : Range) (hi : rangeIntersection a b = some i)
    (h : Nat) :
    i.containsH h = true ↔ a.containsH h = true ∧ b.containsH h = true := by
  obtain ⟨hlo, hhi⟩ := rangeIntersection_bounds a b i hi
  rcases i with ⟨li, ti⟩
  simp only at hlo hhi
  subst hlo
  simp only [containsH_iff]
  cases hta : a.hi <;> cases htb : b.hi <;> rw [hta, htb] at hhi <;>
    simp only [minOpt] at hhi <;> subst hhi <;> simp <;> omega

theorem not_containsH_inter_none (a b : Range)
    (hi : rangeIntersection a b = none) (h : Nat) :
    ¬ (a.containsH h = true ∧ b.containsH h = true) := by
  rintro ⟨ha, hb⟩
  rw [containsH_iff] at ha hb
  simp only [rangeIntersection] at hi
  rcases hm : minOpt a.hi b.hi with _ | t <;> rw [hm] at hi
  · cases hi
  · simp only at hi
    split at hi
    · cases hi
    · rename_i hnle
      apply hnle
      have h3 : h ≤ t := by
        cases hta : a.hi <;> cases htb : b.hi <;> rw [hta, htb] at hm <;>
          simp only [minOpt] at hm
        · cases hm
        · cases hm
          exact hb.2 _ htb
        · cases hm
          exact ha.2 _ hta
        · cases hm
          have h4 := ha.2 _ hta
          have h5 := hb.2 _ htb
          omega
      have h1 := ha.1
      have h2 := hb.1
      omega

theorem intersection_some_of_mem (a b : Range) (h : Nat)
    (hma : a.containsH h = true) (hmb : b.containsH h = true) :
    ∃ i, rangeIntersection a b = some i ∧ i.containsH h = true := by
  cases hi : rangeIntersection a b with
  | none => exact absurd ⟨hma, hmb⟩ (not_containsH_inter_none a b hi h)
  | some i => exact ⟨i, rfl, (containsH_inter a b i hi h).2 ⟨hma, hmb⟩⟩

theorem intersection_self (a : Range) (hwf : Range.WF a) :
    rangeIntersection a a = some a := by
  rcases a with ⟨la, ta⟩
  cases ta
  · simp [rangeIntersection, minOpt]
  · rename_i t
    have hle : la ≤ t := hwf t rfl
    simp [rangeIntersection, minOpt, hle]

theorem intersection_wf (a b i : Range) (hi : rangeIntersection a b = some i) :
    Range.WF i := by
  simp only [rangeIntersection] at hi
  rcases hm : minOpt a.hi b.hi with _ | t <;> rw [hm] at hi
  · cases hi
    intro x hx
    cases hx
  · simp only at hi
    split at hi
    · rename_i hle
      cases hi
      intro x hx
      cases hx
      exact hle
    · cases hi

/-- Modelled from the spec: section 4.1, `difference(a, b)` of the missing
`util/range` module. It returns the 0, 1 or 2 sub-ranges of `a` not covered
by `b`: a left remainder below the intersection and a right remainder above
it, each present only when non-empty. -/
def rangeDifference (a b : Range) : List Range :=
  match rangeIntersection a b with
  | none => [a]
  | some i =>
      (if a.lo < i.lo then [⟨a.lo, some (i.lo - 1)⟩] else [])
      ++ (match i.hi, a.hi with
          | some t, none => [⟨t + 1, none⟩]
          | some t, some ta => if t < ta then [⟨t + 1, some ta⟩] else []
          | none, _ => [])

theorem difference_mem (a b : Range) (h : Nat) :
    (∃ p ∈ rangeDifference a b, p.containsH h = true)
      ↔ (a.containsH h = true ∧ ¬ b.containsH h = true) := by
  cases hi : rangeIntersection a b with
  | none =>
      have hdis := not_containsH_inter_none a b hi h
      simp only [rangeDifference, hi, List.mem_singleton]
      constructor
      · rintro ⟨p, rfl, hp⟩
        exact ⟨hp, fun hb => hdis ⟨hp, hb⟩⟩
      · rintro ⟨hp, _⟩
        exact ⟨a, rfl, hp⟩
  | some i =>
      have hic := containsH_inter a b i hi h
      obtain ⟨hblo, hbhi⟩ := rangeIntersection_bounds a b i hi
      have hiwf := intersection_wf a b i hi
      have hIa : a.lo ≤ i.lo := by
        rw [hblo]
        exact le_max_left _ _
      have hIha : ∀ t, i.hi = some t → ∀ ta, a.hi = some ta → t ≤ ta := by
        intro t ht
        rw [hbhi] at ht
        exact minOpt_le_left _ _ _ ht
      have hIhn : i.hi = none → a.hi = none := by
        intro hn
        rw [hbhi] at hn
        exact ((minOpt_none_iff _ _).1 hn).1
      simp only [rangeDifference, hi, List.mem_append]
      constructor
      · rintro ⟨p, hp, hmem⟩
        rcases hp with hp | hp
        · by_cases hlt : a.lo < i.lo
          · rw [if_pos hlt, List.mem_singleton] at hp
            subst hp
            rw [containsH_iff] at hmem
            simp only at hmem
            obtain ⟨hlo', hhi'⟩ := hmem
            have hhi2 : h ≤ i.lo - 1 := hhi' _ rfl
            have hha : a.containsH h = true := by
              rw [containsH_iff]
              refine ⟨hlo', fun ta hta => ?_⟩
              cases hit : i.hi with
              | none =>
                  rw [hIhn hit] at hta
                  cases hta
              | some t =>
                  have h1 := hiwf t hit
                  have h2 := hIha t hit ta hta
                  omega
            refine ⟨hha, fun hb => ?_⟩
            have hcont := hic.2 ⟨hha, hb⟩
            rw [containsH_iff] at hcont
            have := hcont.1
            omega
          · rw [if_neg hlt] at hp
            cases hp
        · cases hit : i.hi with
          | none =>
              simp only [hit, List.not_mem_nil] at hp
          | some t =>
              cases hat : a.hi with
              | none =>
                  simp only [hit, hat, List.mem_singleton] at hp
                  subst hp
                  rw [containsH_iff] at hmem
                  simp only at hmem
                  have hge : t + 1 ≤ h := hmem.1
                  have hha : a.containsH h = true := by
                    rw [containsH_iff]
                    refine ⟨?_, fun ta hta => ?_⟩
                    · have := hiwf t hit
                      omega
                    · rw [hat] at hta
                      cases hta
                  refine ⟨hha, fun hb => ?_⟩
                  have hcont := hic.2 ⟨hha, hb⟩
                  rw [containsH_iff] at hcont
                  have := hcont.2 t hit
                  omega
              | some ta =>
                  simp only [hit, hat] at hp
                  by_cases hlt : t < ta
                  · rw [if_pos hlt, List.mem_singleton] at hp
                    subst hp
                    rw [containsH_iff] at hmem
                    simp only at hmem
                    have hub : h ≤ ta := hmem.2 ta rfl
                    have hge : t + 1 ≤ h := hmem.1
                    have hha : a.containsH h = true := by
                      rw [containsH_iff]
                      have := hiwf t hit
                      refine ⟨by omega, fun tx htx => ?_⟩
                      rw [hat] at htx
                      cases htx
                      exact hub
                    refine ⟨hha, fun hb => ?_⟩
                    have hcont := hic.2 ⟨hha, hb⟩
                    rw [containsH_iff] at hcont
                    have := hcont.2 t hit
                    omega
                  · rw [if_neg hlt] at hp
                    cases hp
      · rintro ⟨hma, hnb⟩
        have hni : ¬ i.containsH h = true := fun hmi => hnb (hic.1 hmi).2
        rw [containsH_iff] at hma hni
        push_neg at hni
        rcases Nat.lt_or_ge h i.lo with hlth | hgeh
        · have hlt : a.lo < i.lo := lt_of_le_of_lt hma.1 hlth
          refine ⟨⟨a.lo, some (i.lo - 1)⟩,
            Or.inl (by rw [if_pos hlt]; exact List.mem_singleton.2 rfl), ?_⟩
          rw [containsH_iff]
          refine ⟨hma.1, fun tx htx => ?_⟩
          simp only at htx
          cases htx
          omega
        · obtain ⟨t, hit, hlt'⟩ := hni hgeh
          refine ⟨⟨t + 1, a.hi⟩, Or.inr ?_, ?_⟩
          · cases hat : a.hi with
            | none =>
                rw [hit]
                exact List.mem_singleton.2 rfl
            | some ta =>
                have hlt2 : t < ta := by
                  have := hma.2 ta hat
                  omega
                rw [hit]
                simp [hlt2]
          · rw [containsH_iff]
            refine ⟨?_, ?_⟩
            · show t + 1 ≤ h
              omega
            · intro tx htx
              exact hma.2 tx htx

inductive EvmTopicFilter where
  | single (topic : String)
  | oneOf (topics : List String)
deriving DecidableEq, Repr

structure EvmLogHandlerEntry (H : Type) where
  filter : Option (List (Option EvmTopicFilter))
  handler : H
deriving DecidableEq, Repr

/-- The `DataHandlers` aggregate of the batcher module (`src/unnamed/part_003`):
handler lists for the pre/post block, event, extrinsic and EVM-log trigger
types. JavaScript records keyed by qualified names are embedded as
association lists in insertion order. -/
structure DataHandlers (H : Type) where
  pre : List H
  post : List H
  events : List (String × List H)
  extrinsics : List (String × List (String × List H))
  evmLogs : List (String × List (EvmLogHandlerEntry H))
deriving DecidableEq, Repr

/-- Key lookup in an association list: the embedding of reading `m[k]` on a
JavaScript record. -/
def lookupA {T : Type} (m : List (String × T)) (k : String) : Option T :=
  (m.find? (fun e => e.fst == k)).map Prod.snd

/-- `mergeMaps` of `src/unnamed/part_003`: iterate the keys of `a` in order,
merging with `b` where the key is shared, then append the keys only in `b`
in their order. -/
def mergeMaps {T : Type} (a b : List (String × T)) (mergeItems : T → T → T) :
    List (String × T) :=
  (a.map (fun e =>
    match lookupA b e.fst with
    | none => e
    | some w => (e.fst, mergeItems e.snd w)))
  ++ b.filter (fun e => (lookupA a e.fst).isNone)

/-- `mergeDataHandlers` of `src/unnamed/part_003`: concatenate the unkeyed
slots and `mergeMaps` the keyed ones, concatenating handler lists on shared
keys (nested per extrinsic). -/
def mergeDataHandlers {H : Type} (a b : DataHandlers H) : DataHandlers H :=
  { pre := a.pre ++ b.pre
    post := a.post ++ b.post
    events := mergeMaps a.events b.events (fun ha hb => ha ++ hb)
    extrinsics := mergeMaps a.extrinsics b.extrinsics
      (fun ea eb => mergeMaps ea eb (fun ha hb => ha ++ hb))
    evmLogs := mergeMaps a.evmLogs b.evmLogs (fun ha hb => ha ++ hb) }

/-- `Batch` of `src/unnamed/part_003`: a block range together with the
handlers that apply to every height of it. -/
structure Batch (H : Type) where
  range : Range
  handlers : DataHandlers H
deriving DecidableEq, Repr

/-- Modelled from the spec: section 4.2, the missing `util/heap` module's
`push`, on a heap represented as a list sorted by ascending `range.from`.
The element is inserted after every element with a smaller-or-equal key, so
equal keys pop in insertion order. -/
def heapPush {H : Type} (el : Batch H) : List (Batch H) → List (Batch H)
  | [] => [el]
  | x :: xs => if x.range.lo ≤ el.range.lo then x :: heapPush el xs else el :: x :: xs

/-- Modelled from the spec: section 4.2, the missing `util/heap` module's
`init`, as repeated `push`; `pop`/`peek` are the head of the sorted list. -/
def heapInit {H : Type} (l : List (Batch H)) : List (Batch H) :=
  l.foldl (fun hp b => heapPush b hp) []

def rangeEndpoints (r : Range) : Finset Nat :=
  match r.hi with
  | none => {r.lo}
  | some t => {r.lo, t + 1}

def endpointsList {H : Type} (l : List (Batch H)) : Finset Nat :=
  l.foldr (fun b s => rangeEndpoints b.range ∪ s) ∅

def insideb (r : Range) (p : Nat) : Bool :=
  decide (r.lo < p) && bleOpt p r.hi

def innerCount (B : Finset Nat) (r : Range) : Nat :=
  (B.filter (fun p => insideb r p = true)).card

def innerCountSum {H : Type} (B : Finset Nat) (l : List (Batch H)) : Nat :=
  (l.map (fun b => innerCount B b.range)).sum

def mergeMeasure {H : Type} (top : Batch H) (heap : List (Batch H)) : Nat :=
  4 * innerCountSum (endpointsList (top :: heap)) (top :: heap) + (heap.length + 1)

def epOK (B : Finset Nat) (r : Range) : Prop :=
  r.lo ∈ B ∧ ∀ t, r.hi = some t → t + 1 ∈ B

theorem insideb_iff (r : Range) (p : Nat) :
    insideb r p = true ↔ r.lo < p ∧ ∀ t, r.hi = some t → p ≤ t := by
  cases hr : r.hi <;> simp [insideb, bleOpt, hr]

theorem insideb_containsH (r : Range) (p : Nat) (hp : insideb r p = true) :
    r.containsH p = true := by
  rw [insideb_iff] at hp
  rw [containsH_iff]
  exact ⟨Nat.le_of_lt hp.1, hp.2⟩

theorem difference_length_le (a b : Range) :
    (rangeDifference a b).length ≤ 2 := by
  unfold rangeDifference
  cases rangeIntersection a b with
  | none => simp
  | some i =>
      simp only [List.length_append]
      have h1 : (if a.lo < i.lo then [(⟨a.lo, some (i.lo - 1)⟩ : Range)] else []).length ≤ 1 := by
        split <;> simp
      have h2 : (match i.hi, a.hi with
          | some t, none => [(⟨t + 1, none⟩ : Range)]
          | some t, some ta => if t < ta then [(⟨t + 1, some ta⟩ : Range)] else []
          | none, _ => ([] : List Range)).length ≤ 1 := by
        cases i.hi <;> cases a.hi <;> simp only
        · simp
        · simp
        · simp
        · split <;> simp
      omega

theorem difference_lo_ge (a b : Range) (p : Range)
    (hp : p ∈ rangeDifference a b) : a.lo ≤ p.lo := by
  unfold rangeDifference at hp
  cases hi : rangeIntersection a b with
  | none =>
      rw [hi] at hp
      simp at hp
      subst hp
      exact le_refl _
  | some i =>
      have hiwf := intersection_wf a b i hi
      have hIa : a.lo ≤ i.lo := by
        rw [(rangeIntersection_bounds a b i hi).1]
        exact le_max_left _ _
      rw [hi] at hp
      rw [List.mem_append] at hp
      rcases hp with hp | hp
      · split at hp <;> simp at hp
        subst hp
        exact le_refl _
      · cases hit : i.hi with
        | none => simp [hit] at hp
        | some t =>
            have h1 := hiwf t hit
            cases hat : a.hi with
            | none =>
                simp only [hit, hat, List.mem_singleton] at hp
                subst hp
                show a.lo ≤ t + 1
                omega
            | some ta =>
                simp only [hit, hat] at hp
                split at hp <;> simp at hp
                subst hp
                show a.lo ≤ t + 1
                omega

/-- Termination measure of the merge loop: interior endpoints weighted four
times, plus the heap size. A split strictly drops the interior-endpoint
count (each piece avoids an endpoint of the intersection) by more than the
bounded growth of the heap; emitting a batch drops the size. -/
def listMeasure {H : Type} (l : List (Batch H)) : Nat :=
  4 * innerCountSum (endpointsList l) l + l.length

theorem mem_rangeEndpoints (r : Range) (x : Nat) :
    x ∈ rangeEndpoints r ↔ x = r.lo ∨ ∃ t, r.hi = some t ∧ x = t + 1 := by
  cases hr : r.hi <;> simp [rangeEndpoints, hr]

theorem mem_endpointsList {H : Type} (l : List (Batch H)) (x : Nat) :
    x ∈ endpointsList l ↔ ∃ b ∈ l, x ∈ rangeEndpoints b.range := by
  induction l with
  | nil => simp [endpointsList]
  | cons b l ih =>
      simp only [endpointsList, List.foldr_cons, Finset.mem_union, List.mem_cons]
      rw [show (List.foldr (fun b s => rangeEndpoints b.range ∪ s) ∅ l) = endpointsList l from rfl] at *
      constructor
      · rintro (hx | hx)
        · exact ⟨b, Or.inl rfl, hx⟩
        · obtain ⟨c, hc, hxc⟩ := ih.1 hx
          exact ⟨c, Or.inr hc, hxc⟩
      · rintro ⟨c, hc | hc, hxc⟩
        · subst hc
          exact Or.inl hxc
        · exact Or.inr (ih.2 ⟨c, hc, hxc⟩)

theorem epOK_of_mem {H : Type} (l : List (Batch H)) (b : Batch H) (hb : b ∈ l) :
    epOK (endpointsList l) b.range := by
  constructor
  · rw [mem_endpointsList]
    exact ⟨b, hb, by rw [mem_rangeEndpoints]; exact Or.inl rfl⟩
  · intro t ht
    rw [mem_endpointsList]
    exact ⟨b, hb, by rw [mem_rangeEndpoints]; exact Or.inr ⟨t, ht, rfl⟩⟩

theorem endpointsList_subset_of_epOK {H : Type} (l : List (Batch H)) (B : Finset Nat)
    (hl : ∀ b ∈ l, epOK B b.range) : endpointsList l ⊆ B := by
  intro x hx
  rw [mem_endpointsList] at hx
  obtain ⟨b, hb, hxb⟩ := hx
  rw [mem_rangeEndpoints] at hxb
  rcases hxb with rfl | ⟨t, ht, rfl⟩
  · exact (hl b hb).1
  · exact (hl b hb).2 t ht

theorem innerCount_mono (B B' : Finset Nat) (r : Range) (hsub : B ⊆ B') :
    innerCount B r ≤ innerCount B' r :=
  Finset.card_le_card (Finset.monotone_filter_left _ hsub)

theorem innerCountSum_mono {H : Type} (B B' : Finset Nat) (l : List (Batch H))
    (hsub : B ⊆ B') : innerCountSum B l ≤ innerCountSum B' l := by
  induction l with
  | nil => simp [innerCountSum]
  | cons b l ih =>
      simp only [innerCountSum, List.map_cons, List.sum_cons] at *
      exact Nat.add_le_add (innerCount_mono B B' b.range hsub) ih

theorem innerCountSum_append {H : Type} (B : Finset Nat) (l l' : List (Batch H)) :
    innerCountSum B (l ++ l') = innerCountSum B l + innerCountSum B l' := by
  simp [innerCountSum]

theorem minOpt_idem (x : Option Nat) : minOpt x x = x := by
  cases x <;> simp [minOpt]

theorem minOpt_eq_or (x y : Option Nat) (t : Nat) (hm : minOpt x y = some t) :
    x = some t ∨ y = some t := by
  match x, y with
  | none, none => cases hm
  | none, some b =>
      simp only [minOpt] at hm
      exact Or.inr hm
  | some a, none =>
      simp only [minOpt] at hm
      exact Or.inl hm
  | some a, some b =>
      simp only [minOpt, Option.some.injEq] at hm
      rcases min_choice a b with hc | hc
      · exact Or.inl (by rw [← hm, hc])
      · exact Or.inr (by rw [← hm, hc])

theorem intersection_epOK (B : Finset Nat) (a b i : Range)
    (hi : rangeIntersection a b = some i)
    (ha : epOK B a) (hb : epOK B b) : epOK B i := by
  obtain ⟨hlo, hhi⟩ := rangeIntersection_bounds a b i hi
  constructor
  · rw [hlo]
    rcases max_choice a.lo b.lo with hc | hc <;> rw [hc]
    · exact ha.1
    · exact hb.1
  · intro t ht
    rw [hhi] at ht
    rcases minOpt_eq_or _ _ _ ht with hc | hc
    · exact ha.2 t hc
    · exact hb.2 t hc

theorem difference_epOK (B : Finset Nat) (a b : Range)
    (ha : epOK B a) (hb : epOK B b) :
    ∀ p ∈ rangeDifference a b, epOK B p := by
  intro p hp
  unfold rangeDifference at hp
  cases hi : rangeIntersection a b with
  | none =>
      rw [hi] at hp
      simp at hp
      subst hp
      exact ha
  | some i =>
      have hiok := intersection_epOK B a b i hi ha hb
      rw [hi, List.mem_append] at hp
      rcases hp with hp | hp
      · split at hp <;> simp at hp
        subst hp
        refine ⟨ha.1, fun t ht => ?_⟩
        simp only at ht
        cases ht
        rename_i hlt
        have : i.lo - 1 + 1 = i.lo := by omega
        rw [this]
        exact hiok.1
      · cases hit : i.hi with
        | none => simp [hit] at hp
        | some t =>
            cases hat : a.hi with
            | none =>
                simp only [hit, hat, List.mem_singleton] at hp
                subst hp
                refine ⟨hiok.2 t hit, fun tx htx => ?_⟩
                cases htx
            | some ta =>
                simp only [hit, hat] at hp
                split at hp <;> simp at hp
                subst hp
                refine ⟨hiok.2 t hit, fun tx htx => ?_⟩
                simp only at htx
                cases htx
                exact ha.2 _ hat

theorem heapPush_perm {H : Type} (el : Batch H) (l : List (Batch H)) :
    (heapPush el l).Perm (el :: l) := by
  induction l with
  | nil => exact List.Perm.refl _
  | cons x xs ih =>
      simp only [heapPush]
      split
      · exact ((ih.cons x).trans (List.Perm.swap el x xs))
      · exact List.Perm.refl _

theorem foldl_heapPush_perm {H : Type} (L l0 : List (Batch H)) :
    (L.foldl (fun hp b => heapPush b hp) l0).Perm (L ++ l0) := by
  induction L generalizing l0 with
  | nil => simp
  | cons b L ih =>
      simp only [List.foldl_cons, List.cons_append]
      have h1 := ih (heapPush b l0)
      have h2 : (L ++ heapPush b l0).Perm (L ++ (b :: l0)) :=
        List.Perm.append_left L (heapPush_perm b l0)
      have h3 : (L ++ (b :: l0)).Perm (b :: (L ++ l0)) := List.perm_middle
      exact (h1.trans h2).trans h3

theorem endpointsList_perm {H : Type} (l l' : List (Batch H)) (hp : l.Perm l') :
    endpointsList l = endpointsList l' := by
  apply Finset.ext
  intro x
  rw [mem_endpointsList, mem_endpointsList]
  constructor
  · rintro ⟨b, hb, hxb⟩
    exact ⟨b, hp.mem_iff.1 hb, hxb⟩
  · rintro ⟨b, hb, hxb⟩
    exact ⟨b, hp.mem_iff.2 hb, hxb⟩

theorem innerCountSum_perm {H : Type} (B : Finset Nat) (l l' : List (Batch H))
    (hp : l.Perm l') : innerCountSum B l = innerCountSum B l' :=
  List.Perm.sum_eq (hp.map _)

theorem listMeasure_perm {H : Type} (l l' : List (Batch H)) (hp : l.Perm l') :
    listMeasure l = listMeasure l' := by
  unfold listMeasure
  rw [endpointsList_perm l l' hp, innerCountSum_perm _ l l' hp, hp.length_eq]

theorem listMeasure_tail_lt {H : Type} (b : Batch H) (l : List (Batch H)) :
    listMeasure l < listMeasure (b :: l) := by
  unfold listMeasure
  have hsub : endpointsList l ⊆ endpointsList (b :: l) := by
    apply endpointsList_subset_of_epOK
    intro c hc
    exact epOK_of_mem _ c (List.mem_cons_of_mem b hc)
  have h1 : innerCountSum (endpointsList l) l
      ≤ innerCountSum (endpointsList (b :: l)) l :=
    innerCountSum_mono _ _ l hsub
  have h2 : innerCountSum (endpointsList (b :: l)) l
      ≤ innerCountSum (endpointsList (b :: l)) (b :: l) := by
    simp only [innerCountSum, List.map_cons, List.sum_cons]
    omega
  simp only [List.length_cons]
  omega

theorem difference_mem_forward (a b p : Range) (hp : p ∈ rangeDifference a b)
    (x : Nat) (hx : p.containsH x = true) :
    a.containsH x = true ∧ ¬ b.containsH x = true :=
  (difference_mem a b x).1 ⟨p, hp, hx⟩

theorem innerCount_eq_sum (B : Finset Nat) (r : Range) :
    innerCount B r = ∑ x ∈ B, (if insideb r x = true then 1 else 0) := by
  unfold innerCount
  rw [Finset.card_filter]

theorem rangesInner_exchange (B : Finset Nat) (L : List Range) :
    (L.map (innerCount B)).sum
      = ∑ x ∈ B, (L.countP (fun r => insideb r x)) := by
  induction L with
  | nil => simp
  | cons r L ih =>
      simp only [List.map_cons, List.sum_cons, List.countP_cons]
      rw [innerCount_eq_sum, ih, ← Finset.sum_add_distrib]
      apply Finset.sum_congr rfl
      intro x _
      by_cases h : insideb r x = true <;> simp [h] <;> try omega

theorem difference_pairwise (a b : Range) (x : Nat) :
    (rangeDifference a b).Pairwise
      (fun p q => ¬(p.containsH x = true ∧ q.containsH x = true)) := by
  unfold rangeDifference
  cases hi : rangeIntersection a b with
  | none => simp
  | some i =>
      have hiwf := intersection_wf a b i hi
      apply List.pairwise_append.2
      refine ⟨?_, ?_, ?_⟩
      · split <;> simp
      · cases i.hi <;> cases a.hi <;> simp only
        · simp
        · simp
        · simp
        · split <;> simp
      · intro p hp q hq
        rintro ⟨hpx, hqx⟩
        split at hp <;> simp at hp
        rename_i hlt
        subst hp
        rw [containsH_iff] at hpx
        simp only at hpx
        have hxlt : x ≤ i.lo - 1 := hpx.2 _ rfl
        cases hit : i.hi with
        | none => simp [hit] at hq
        | some t =>
            have hilot := hiwf t hit
            cases hat : a.hi with
            | none =>
                simp only [hit, hat, List.mem_singleton] at hq
                subst hq
                rw [containsH_iff] at hqx
                simp only at hqx
                have := hqx.1
                omega
            | some ta =>
                simp only [hit, hat] at hq
                split at hq <;> simp at hq
                subst hq
                rw [containsH_iff] at hqx
                simp only at hqx
                have := hqx.1
                omega

theorem countP_insideb_le_one (L : List Range) (x : Nat)
    (hdis : L.Pairwise (fun p q => ¬(p.containsH x = true ∧ q.containsH x = true))) :
    L.countP (fun r => insideb r x) ≤ 1 := by
  induction L with
  | nil => simp
  | cons p L ih =>
      rw [List.pairwise_cons] at hdis
      rw [List.countP_cons]
      by_cases hp : insideb p x = true
      · have hz : L.countP (fun r => insideb r x) = 0 := by
          rw [List.countP_eq_zero]
          intro q hq
          intro hqx
          exact hdis.1 q hq ⟨insideb_containsH p x hp, insideb_containsH q x hqx⟩
        simp [hz, hp]
      · have := ih hdis.2
        simp [hp]
        omega

theorem split_countP_le (ra rb i : Range)
    (hi : rangeIntersection ra rb = some i) (x : Nat) :
    (rangeDifference ra i).countP (fun r => insideb r x)
      + (rangeDifference rb i).countP (fun r => insideb r x)
      + (if insideb i x = true then 1 else 0)
    ≤ (if insideb ra x = true then 1 else 0)
      + (if insideb rb x = true then 1 else 0) := by
  have hA1 := countP_insideb_le_one _ x (difference_pairwise ra i x)
  have hB1 := countP_insideb_le_one _ x (difference_pairwise rb i x)
  have hic := containsH_inter ra rb i hi x
  have hblo := (rangeIntersection_bounds ra rb i hi).1
  have hfA : 0 < (rangeDifference ra i).countP (fun r => insideb r x) →
      insideb ra x = true ∧ ¬ i.containsH x = true := by
    intro hpos
    obtain ⟨p, hp, hpx⟩ := List.countP_pos_iff.1 hpos
    have hcx := insideb_containsH p x hpx
    have hfwd := difference_mem_forward ra i p hp x hcx
    have hlo := difference_lo_ge ra i p hp
    rw [insideb_iff] at hpx
    refine ⟨?_, hfwd.2⟩
    rw [insideb_iff]
    rw [containsH_iff] at hfwd
    exact ⟨by omega, hfwd.1.2⟩
  have hfB : 0 < (rangeDifference rb i).countP (fun r => insideb r x) →
      insideb rb x = true ∧ ¬ i.containsH x = true := by
    intro hpos
    obtain ⟨p, hp, hpx⟩ := List.countP_pos_iff.1 hpos
    have hcx := insideb_containsH p x hpx
    have hfwd := difference_mem_forward rb i p hp x hcx
    have hlo := difference_lo_ge rb i p hp
    rw [insideb_iff] at hpx
    refine ⟨?_, hfwd.2⟩
    rw [insideb_iff]
    rw [containsH_iff] at hfwd
    exact ⟨by omega, hfwd.1.2⟩
  have hfI : insideb i x = true → insideb ra x = true ∧ insideb rb x = true := by
    intro hix
    have hcx := insideb_containsH i x hix
    have hab := hic.1 hcx
    rw [insideb_iff] at hix
    simp only [containsH_iff] at hab
    constructor <;> rw [insideb_iff]
    · exact ⟨by omega, (hab.1).2⟩
    · exact ⟨by omega, (hab.2).2⟩
  have hfAB : 0 < (rangeDifference ra i).countP (fun r => insideb r x) →
      0 < (rangeDifference rb i).countP (fun r => insideb r x) → False := by
    intro ha hb
    have h1 := hfA ha
    have h2 := hfB hb
    exact h1.2 (hic.2 ⟨insideb_containsH _ _ h1.1, insideb_containsH _ _ h2.1⟩)
  by_cases hI : insideb i x = true
  · have hDA : (rangeDifference ra i).countP (fun r => insideb r x) = 0 := by
      by_contra hnz
      exact (hfA (Nat.pos_of_ne_zero hnz)).2 (insideb_containsH i x hI)
    have hDB : (rangeDifference rb i).countP (fun r => insideb r x) = 0 := by
      by_contra hnz
      exact (hfB (Nat.pos_of_ne_zero hnz)).2 (insideb_containsH i x hI)
    obtain ⟨hia, hib⟩ := hfI hI
    simp [hDA, hDB, hI, hia, hib]
  · simp only [hI, if_false]
    by_cases hDA : 0 < (rangeDifference ra i).countP (fun r => insideb r x)
    · have hDB : (rangeDifference rb i).countP (fun r => insideb r x) = 0 := by
        by_contra hnz
        exact hfAB hDA (Nat.pos_of_ne_zero hnz)
      have := (hfA hDA).1
      simp [hDB, this]
      omega
    · have hDA0 : (rangeDifference ra i).countP (fun r => insideb r x) = 0 := by
        omega
      by_cases hDB : 0 < (rangeDifference rb i).countP (fun r => insideb r x)
      · have := (hfB hDB).1
        simp [hDA0, this]
        omega
      · have hDB0 : (rangeDifference rb i).countP (fun r => insideb r x) = 0 := by
          omega
        simp [hDA0, hDB0]

theorem split_exists_strict (B : Finset Nat) (ra rb i : Range)
    (hi : rangeIntersection ra rb = some i) (hne : ra ≠ rb)
    (hra : epOK B ra) (hrb : epOK B rb) :
    ∃ q ∈ B,
      (rangeDifference ra i).countP (fun r => insideb r q)
        + (rangeDifference rb i).countP (fun r => insideb r q)
        + (if insideb i q = true then 1 else 0)
      < (if insideb ra q = true then 1 else 0)
        + (if insideb rb q = true then 1 else 0) := by
  obtain ⟨hblo, hbhi⟩ := rangeIntersection_bounds ra rb i hi
  have hiwf := intersection_wf ra rb i hi
  by_cases hlo : ra.lo = rb.lo
  · -- equal lower bounds: the upper bounds differ; cut just above the smaller
    have hhine : ra.hi ≠ rb.hi := by
      intro hh
      apply hne
      rcases ra with ⟨la, ta⟩
      rcases rb with ⟨lb, tb⟩
      simp only at hlo hh
      rw [hlo, hh]
    cases hit : i.hi with
    | none =>
        rw [hbhi] at hit
        obtain ⟨h1, h2⟩ := (minOpt_none_iff _ _).1 hit
        exact absurd (h1.trans h2.symm) hhine
    | some tm =>
        have htmB : tm + 1 ∈ B := by
          rw [hbhi] at hit
          rcases minOpt_eq_or _ _ _ hit with hc | hc
          · exact hra.2 tm hc
          · exact hrb.2 tm hc
        have hcitm : i.containsH tm = true := by
          rw [containsH_iff]
          exact ⟨hiwf tm hit, fun t ht => by rw [hit] at ht; cases ht; exact le_rfl⟩
        have hDA : (rangeDifference ra i).countP (fun r => insideb r (tm + 1)) = 0 := by
          rw [List.countP_eq_zero]
          intro p hp hpx
          rw [insideb_iff] at hpx
          have hptm : p.containsH tm = true := by
            rw [containsH_iff]
            exact ⟨by omega, fun t ht => by have := hpx.2 t ht; omega⟩
          exact (difference_mem_forward ra i p hp tm hptm).2 hcitm
        have hDB : (rangeDifference rb i).countP (fun r => insideb r (tm + 1)) = 0 := by
          rw [List.countP_eq_zero]
          intro p hp hpx
          rw [insideb_iff] at hpx
          have hptm : p.containsH tm = true := by
            rw [containsH_iff]
            exact ⟨by omega, fun t ht => by have := hpx.2 t ht; omega⟩
          exact (difference_mem_forward rb i p hp tm hptm).2 hcitm
        have hI0 : ¬ insideb i (tm + 1) = true := by
          rw [insideb_iff]
          rintro ⟨_, hup⟩
          have := hup tm hit
          omega
        have hilotm : i.lo ≤ tm := hiwf tm hit
        have hRHS : (if insideb ra (tm + 1) = true then 1 else 0)
            + (if insideb rb (tm + 1) = true then 1 else 0) ≥ 1 := by
          cases hta : ra.hi with
          | none =>
              have hin : insideb ra (tm + 1) = true := by
                rw [insideb_iff]
                refine ⟨?_, fun t ht => by rw [hta] at ht; cases ht⟩
                have : ra.lo ≤ i.lo := by
                  rw [hblo]
                  exact le_max_left _ _
                omega
              simp [hin]
          | some ta =>
              cases htb : rb.hi with
              | none =>
                  have hin : insideb rb (tm + 1) = true := by
                    rw [insideb_iff]
                    refine ⟨?_, fun t ht => by rw [htb] at ht; cases ht⟩
                    have : rb.lo ≤ i.lo := by
                      rw [hblo]
                      exact le_max_right _ _
                    omega
                  simp [hin]
              | some tb =>
                  have htne : ta ≠ tb := by
                    intro hh
                    apply hhine
                    rw [hta, htb, hh]
                  have htm : tm = min ta tb := by
                    rw [hbhi, hta, htb] at hit
                    simp only [minOpt] at hit
                    injection hit with hit
                    omega
                  rcases Nat.lt_or_ge ta tb with hcmp | hcmp
                  · have hin : insideb rb (tm + 1) = true := by
                      rw [insideb_iff]
                      refine ⟨?_, fun t ht => by rw [htb] at ht; cases ht; omega⟩
                      have : rb.lo ≤ i.lo := by
                        rw [hblo]
                        exact le_max_right _ _
                      omega
                    simp [hin]
                  · have hcmp2 : tb < ta := by omega
                    have hin : insideb ra (tm + 1) = true := by
                      rw [insideb_iff]
                      refine ⟨?_, fun t ht => by rw [hta] at ht; cases ht; omega⟩
                      have : ra.lo ≤ i.lo := by
                        rw [hblo]
                        exact le_max_left _ _
                      omega
                    simp [hin]
        refine ⟨tm + 1, htmB, ?_⟩
        rw [hDA, hDB, if_neg hI0]
        omega
  · -- distinct lower bounds: cut at the larger lower bound, i.lo
    have hqB : i.lo ∈ B := by
      rw [hblo]
      rcases max_choice ra.lo rb.lo with hc | hc <;> rw [hc]
      · exact hra.1
      · exact hrb.1
    have hci : i.containsH i.lo = true := by
      rw [containsH_iff]
      exact ⟨le_rfl, fun t ht => hiwf t ht⟩
    have hDA : (rangeDifference ra i).countP (fun r => insideb r i.lo) = 0 := by
      rw [List.countP_eq_zero]
      intro p hp hpx
      exact (difference_mem_forward ra i p hp i.lo (insideb_containsH _ _ hpx)).2 hci
    have hDB : (rangeDifference rb i).countP (fun r => insideb r i.lo) = 0 := by
      rw [List.countP_eq_zero]
      intro p hp hpx
      exact (difference_mem_forward rb i p hp i.lo (insideb_containsH _ _ hpx)).2 hci
    have hI0 : ¬ insideb i i.lo = true := by
      rw [insideb_iff]
      rintro ⟨h1, _⟩
      omega
    have hup : ∀ rc : Range, rc.lo < i.lo → (∀ t, rc.hi = some t → i.lo ≤ t) →
        insideb rc i.lo = true := by
      intro rc h1 h2
      rw [insideb_iff]
      exact ⟨h1, h2⟩
    have hupA : ∀ t, i.hi = some t → ∀ ta, ra.hi = some ta → t ≤ ta := by
      intro t ht
      rw [hbhi] at ht
      exact minOpt_le_left _ _ _ ht
    have hupB : ∀ t, i.hi = some t → ∀ tb, rb.hi = some tb → t ≤ tb := by
      intro t ht
      rw [hbhi] at ht
      exact minOpt_le_right _ _ _ ht
    have hRHS : (if insideb ra i.lo = true then 1 else 0)
        + (if insideb rb i.lo = true then 1 else 0) ≥ 1 := by
      rcases Nat.lt_or_ge ra.lo rb.lo with hc | hc
      · have hin : insideb ra i.lo = true := by
          apply hup
          · omega
          · intro t ht
            cases hit : i.hi with
            | none =>
                rw [hbhi] at hit
                rw [((minOpt_none_iff _ _).1 hit).1] at ht
                cases ht
            | some ti =>
                have := hiwf ti hit
                have := hupA ti hit t ht
                omega
        simp [hin]
      · have hc2 : rb.lo < ra.lo := by omega
        have hin : insideb rb i.lo = true := by
          apply hup
          · omega
          · intro t ht
            cases hit : i.hi with
            | none =>
                rw [hbhi] at hit
                rw [((minOpt_none_iff _ _).1 hit).2] at ht
                cases ht
            | some ti =>
                have := hiwf ti hit
                have := hupB ti hit t ht
                omega
        simp [hin]
    refine ⟨i.lo, hqB, ?_⟩
    rw [hDA, hDB, if_neg hI0]
    omega

/-- One overlap step of `mergeBatches` (`src/unnamed/part_003`): the pieces of
the two overlapping batches outside their intersection `i` keep their own
handlers, and `i` gets the merged handlers; all are pushed back onto the
heap. -/
def splitPieces {H : Type} (top batch : Batch H) (i : Range) : List (Batch H) :=
  ((rangeDifference top.range i).map (fun r => Batch.mk r top.handlers))
    ++ ((rangeDifference batch.range i).map (fun r => Batch.mk r batch.handlers))
    ++ [Batch.mk i (mergeDataHandlers top.handlers batch.handlers)]

theorem splitPieces_measure_lt {H : Type} (top batch : Batch H)
    (rest heap2 : List (Batch H)) (i : Range)
    (hi : rangeIntersection top.range batch.range = some i)
    (hperm : heap2.Perm (splitPieces top batch i ++ rest)) :
    listMeasure heap2 < listMeasure (top :: batch :: rest) := by
  rw [show splitPieces top batch i
      = ((rangeDifference top.range i).map (fun r => Batch.mk r top.handlers))
        ++ ((rangeDifference batch.range i).map (fun r => Batch.mk r batch.handlers))
        ++ [Batch.mk i (mergeDataHandlers top.handlers batch.handlers)] from rfl] at hperm
  set ra := top.range with hra
  set rb := batch.range with hrb
  set P := ((rangeDifference ra i).map (fun r => Batch.mk r top.handlers))
      ++ ((rangeDifference rb i).map (fun r => Batch.mk r batch.handlers))
      ++ [Batch.mk i (mergeDataHandlers top.handlers batch.handlers)] with hP
  set S1 := top :: batch :: rest with hS1
  set B1 := endpointsList S1 with hB1
  have hraOK : epOK B1 ra := epOK_of_mem S1 top (by simp [hS1])
  have hrbOK : epOK B1 rb := epOK_of_mem S1 batch (by simp [hS1])
  have hPok : ∀ b ∈ P ++ rest, epOK B1 b.range := by
    intro b hb
    rw [List.mem_append] at hb
    rcases hb with hb | hb
    · rw [hP] at hb
      simp only [List.mem_append, List.mem_map, List.mem_singleton] at hb
      rcases hb with (⟨r, hr, rfl⟩ | ⟨r, hr, rfl⟩) | rfl
      · exact difference_epOK B1 ra i hraOK
          (intersection_epOK B1 ra rb i hi hraOK hrbOK) r hr
      · exact difference_epOK B1 rb i hrbOK
          (intersection_epOK B1 ra rb i hi hraOK hrbOK) r hr
      · exact intersection_epOK B1 ra rb i hi hraOK hrbOK
    · exact epOK_of_mem S1 b (by simp [hS1, hb])
  have hB2sub : endpointsList heap2 ⊆ B1 := by
    rw [endpointsList_perm heap2 _ hperm]
    exact endpointsList_subset_of_epOK _ B1 hPok
  have hlen2 : heap2.length = P.length + rest.length := by
    rw [hperm.length_eq, List.length_append]
  have hPlen : P.length ≤ 5 := by
    rw [hP]
    simp only [List.length_append, List.length_map, List.length_singleton]
    have h1 := difference_length_le ra i
    have h2 := difference_length_le rb i
    omega
  have hsum2 : innerCountSum (endpointsList heap2) heap2
      ≤ innerCountSum B1 P + innerCountSum B1 rest := by
    calc innerCountSum (endpointsList heap2) heap2
        ≤ innerCountSum B1 heap2 := innerCountSum_mono _ _ _ hB2sub
      _ = innerCountSum B1 (P ++ rest) := innerCountSum_perm B1 _ _ hperm
      _ = innerCountSum B1 P + innerCountSum B1 rest := innerCountSum_append _ _ _
  have hmapP : P.map (fun b => b.range)
      = (rangeDifference ra i) ++ (rangeDifference rb i) ++ [i] := by
    rw [hP]
    simp [List.map_map, Function.comp_def]
  have hsumP : innerCountSum B1 P
      = ((rangeDifference ra i).map (innerCount B1)).sum
        + ((rangeDifference rb i).map (innerCount B1)).sum
        + innerCount B1 i := by
    unfold innerCountSum
    rw [show (P.map (fun b => innerCount B1 b.range))
        = (P.map (fun b => b.range)).map (innerCount B1) by rw [List.map_map]; rfl]
    rw [hmapP]
    simp only [List.map_append, List.sum_append, List.map_singleton, List.sum_singleton]
  by_cases heq : ra = rb
  · -- identical ranges: both differences vanish and only the merged batch remains
    have hieq : i = ra := by
      obtain ⟨h1, h2⟩ := rangeIntersection_bounds ra rb i hi
      rcases i with ⟨li, ti⟩
      rw [← heq] at h1 h2
      simp only at h1 h2
      rw [max_self] at h1
      rw [minOpt_idem] at h2
      rw [h1, h2]
    have hirara : rangeIntersection ra ra = some ra := by
      have hi2 := hi
      rw [← heq] at hi2
      rw [hi2, hieq]
    have hdiffA : rangeDifference ra i = [] := by
      rw [hieq]
      unfold rangeDifference
      rw [hirara]
      simp only [lt_self_iff_false, if_false, List.nil_append]
      cases ra.hi <;> simp
    have hdiffB : rangeDifference rb i = [] := by
      rw [← heq, hdiffA]
    have hinnerB : innerCount B1 i = innerCount B1 ra := by rw [hieq]
    unfold listMeasure
    rw [hsumP, hdiffA, hdiffB] at hsum2
    simp only [List.map_nil, List.sum_nil, Nat.zero_add] at hsum2
    have hre : innerCountSum B1 S1 = innerCount B1 ra + innerCount B1 rb
        + innerCountSum B1 rest := by
      rw [hS1]
      unfold innerCountSum
      simp only [List.map_cons, List.sum_cons]
      rw [hra, hrb]
      omega
    have hPlen1 : P.length = 1 := by
      rw [hP, hdiffA, hdiffB]
      simp
    rw [← hB1]
    rw [hre]
    have h4 := hsum2
    rw [hinnerB] at h4
    simp only [hS1, List.length_cons]
    omega
  · -- distinct ranges: the interior count drops strictly
    have hstrict : ((rangeDifference ra i).map (innerCount B1)).sum
        + ((rangeDifference rb i).map (innerCount B1)).sum
        + innerCount B1 i
        < innerCount B1 ra + innerCount B1 rb := by
      rw [rangesInner_exchange, rangesInner_exchange, innerCount_eq_sum,
        innerCount_eq_sum, innerCount_eq_sum, ← Finset.sum_add_distrib,
        ← Finset.sum_add_distrib, ← Finset.sum_add_distrib]
      apply Finset.sum_lt_sum
      · intro x _
        exact split_countP_le ra rb i hi x
      · obtain ⟨q, hqB, hq⟩ := split_exists_strict B1 ra rb i hi heq hraOK hrbOK
        exact ⟨q, hqB, hq⟩
    unfold listMeasure
    rw [← hB1]
    have hre : innerCountSum B1 S1 = innerCount B1 ra + innerCount B1 rb
        + innerCountSum B1 rest := by
      rw [hS1]
      unfold innerCountSum
      simp only [List.map_cons, List.sum_cons]
      rw [hra, hrb]
      omega
    rw [hre]
    rw [hsumP] at hsum2
    simp only [hS1, List.length_cons]
    omega

/-- The while-loop of `mergeBatches` (`src/unnamed/part_003`): `top` is the
popped minimum, `heap` the rest. Disjoint tops are emitted; overlapping
pairs are split by `splitPieces` and pushed back. Termination is by
`listMeasure`, which drops on every split (the pieces avoid an interior
endpoint) and on every emission. -/
def mergeLoop {H : Type} (top : Batch H) (heap : List (Batch H)) : List (Batch H) :=
  match heap with
  | [] => [top]
  | batch :: rest =>
    match hint : rangeIntersection top.range batch.range with
    | none => top :: mergeLoop batch rest
    | some i =>
      match hne : (splitPieces top batch i).foldl (fun hp b => heapPush b hp) rest with
      | [] => [top]
      | top' :: heap' => mergeLoop top' heap'
termination_by listMeasure (top :: heap)
decreasing_by
  · exact listMeasure_tail_lt top (x :: xs)
  · exact splitPieces_measure_lt top x xs (top' :: heap') i hint
      (by rw [← hne]; exact foldl_heapPush_perm _ xs)

theorem mergeLoop_nil {H : Type} (top : Batch H) : mergeLoop top [] = [top] := by
  rw [mergeLoop.eq_def]

theorem mergeLoop_cons_none {H : Type} (top batch : Batch H) (rest : List (Batch H))
    (h : rangeIntersection top.range batch.range = none) :
    mergeLoop top (batch :: rest) = top :: mergeLoop batch rest := by
  conv_lhs => rw [mergeLoop.eq_def]
  split
  · rename_i heq
    cases heq
  · rename_i x xs heq
    injection heq with h1 h2
    subst h1
    subst h2
    split
    · rfl
    · rename_i i hint
      rw [h] at hint
      cases hint

theorem mergeLoop_cons_some {H : Type} (top batch : Batch H)
    (rest heap2 : List (Batch H)) (top2 : Batch H) (i : Range)
    (h : rangeIntersection top.range batch.range = some i)
    (hf : (splitPieces top batch i).foldl (fun hp b => heapPush b hp) rest
      = top2 :: heap2) :
    mergeLoop top (batch :: rest) = mergeLoop top2 heap2 := by
  conv_lhs => rw [mergeLoop.eq_def]
  split
  · rename_i heq
    cases heq
  · rename_i x xs heq
    injection heq with h1 h2
    subst h1
    subst h2
    split
    · rename_i hint
      rw [h] at hint
      cases hint
    · rename_i i2 hint
      rw [h] at hint
      injection hint with hint
      subst hint
      split
      · rename_i hne
        rw [hf] at hne
        cases hne
      · rename_i t2 h2 hne
        rw [hf] at hne
        injection hne with hne1 hne2
        rw [hne1, hne2]

/-- `mergeBatches` of `src/unnamed/part_003`: lists of at most one batch are
returned as-is, otherwise the heap sweep of `mergeLoop` runs over the
heap-ordered input. -/
def mergeBatches {H : Type} (batches : List (Batch H)) : List (Batch H) :=
  if batches.length ≤ 1 then batches
  else
    match heapInit batches with
    | [] => []
    | top :: heap => mergeLoop top heap

structure BlockHook (H : Type) where
  range : Option Range
  handler : H

structure EventHook (H : Type) where
  range : Option Range
  event : String
  handler : H

structure ExtrinsicHook (H : Type) where
  range : Option Range
  event : String
  extrinsic : String
  handler : H

structure EvmLogHook (H : Type) where
  range : Option Range
  contractAddress : String
  filter : Option (List (Option EvmTopicFilter))
  handler : H

/-- Modelled from the spec: the `interfaces/hooks` registration aggregate of
the batcher module, with exactly the fields its `createBatches` reads. Each
hook holds its optional range, its key(s), and its opaque handler. -/
structure Hooks (H : Type) where
  pre : List (BlockHook H)
  post : List (BlockHook H)
  event : List (EventHook H)
  extrinsic : List (ExtrinsicHook H)
  evmLog : List (EvmLogHook H)

/-- The `getRange` closure of `createBatches` (`src/unnamed/part_003`): a
hook's range defaults to `{from: 0}` and is clipped by the optional global
block range; `none` means the clipped range is empty. -/
def getRange (hookRange : Option Range) (blockRange : Option Range) : Option Range :=
  let range := hookRange.getD ⟨0, none⟩
  match blockRange with
  | none => some range
  | some br => rangeIntersection range br

/-- The five `forEach` blocks of `createBatches` (`src/unnamed/part_003`): one
singleton batch per registration whose clipped range is non-empty, in slot
order pre, post, event, extrinsic, evmLog. -/
def singletonBatches {H : Type} (hooks : Hooks H) (blockRange : Option Range) :
    List (Batch H) :=
  (hooks.pre.filterMap (fun hook =>
      (getRange hook.range blockRange).map (fun range =>
        Batch.mk range ⟨[hook.handler], [], [], [], []⟩)))
    ++ (hooks.post.filterMap (fun hook =>
      (getRange hook.range blockRange).map (fun range =>
        Batch.mk range ⟨[], [hook.handler], [], [], []⟩)))
    ++ (hooks.event.filterMap (fun hook =>
      (getRange hook.range blockRange).map (fun range =>
        Batch.mk range ⟨[], [], [(hook.event, [hook.handler])], [], []⟩)))
    ++ (hooks.extrinsic.filterMap (fun hook =>
      (getRange hook.range blockRange).map (fun range =>
        Batch.mk range ⟨[], [], [], [(hook.event, [(hook.extrinsic, [hook.handler])])], []⟩)))
    ++ (hooks.evmLog.filterMap (fun hook =>
      (getRange hook.range blockRange).map (fun range =>
        Batch.mk range ⟨[], [], [], [], [(hook.contractAddress, [⟨hook.filter, hook.handler⟩])]⟩)))

/-- `createBatches` of `src/unnamed/part_003`: the singleton batches of all
registrations, merged by `mergeBatches`. -/
def createBatches {H : Type} (hooks : Hooks H) (blockRange : Option Range) :
    List (Batch H) :=
  mergeBatches (singletonBatches hooks blockRange)
theorem splitPieces_length_pos {H : Type} (top batch : Batch H) (i : Range) :
    0 < (splitPieces top batch i).length := by
  unfold splitPieces
  simp

theorem foldl_ne_nil {H : Type} (top batch : Batch H) (i : Range)
    (rest : List (Batch H))
    (h : (splitPieces top batch i).foldl (fun hp b => heapPush b hp) rest = []) :
    False := by
  have hperm := foldl_heapPush_perm (splitPieces top batch i) rest
  rw [h] at hperm
  have hlen := hperm.length_eq
  rw [List.length_append] at hlen
  have := splitPieces_length_pos top batch i
  simp at hlen
  omega

theorem splitPieces_covers {H : Type} (top batch : Batch H) (i : Range)
    (hint : rangeIntersection top.range batch.range = some i) (h : Nat) :
    (∃ b ∈ splitPieces top batch i, b.range.containsH h = true)
      ↔ (top.range.containsH h = true ∨ batch.range.containsH h = true) := by
  have hic := containsH_inter top.range batch.range i hint h
  have hdA := difference_mem top.range i h
  have hdB := difference_mem batch.range i h
  unfold splitPieces
  simp only [List.mem_append, List.mem_map, List.mem_singleton]
  constructor
  · rintro ⟨b, hb, hmemb⟩
    rcases hb with (⟨r, hr, rfl⟩ | ⟨r, hr, rfl⟩) | rfl
    · exact Or.inl (hdA.1 ⟨r, hr, hmemb⟩).1
    · exact Or.inr (hdB.1 ⟨r, hr, hmemb⟩).1
    · exact Or.inl (hic.1 hmemb).1
  · intro hcov
    by_cases hI : i.containsH h = true
    · exact ⟨⟨i, mergeDataHandlers top.handlers batch.handlers⟩,
        Or.inr rfl, hI⟩
    · rcases hcov with hT | hB
      · obtain ⟨p, hp, hpm⟩ := hdA.2 ⟨hT, hI⟩
        exact ⟨⟨p, top.handlers⟩, Or.inl (Or.inl ⟨p, hp, rfl⟩), hpm⟩
      · obtain ⟨p, hp, hpm⟩ := hdB.2 ⟨hB, hI⟩
        exact ⟨⟨p, batch.handlers⟩, Or.inl (Or.inr ⟨p, hp, rfl⟩), hpm⟩

theorem mergeLoop_covers {H : Type} (top : Batch H) (heap : List (Batch H)) (h : Nat) :
    (∃ b ∈ mergeLoop top heap, b.range.containsH h = true)
      ↔ (∃ b ∈ top :: heap, b.range.containsH h = true) := by
  induction top, heap using mergeLoop.induct with
  | case1 top => rw [mergeLoop_nil]
  | case2 top batch rest hint ih =>
      rw [mergeLoop_cons_none top batch rest hint]
      simp only [List.mem_cons] at *
      constructor
      · rintro ⟨b, hb | hb, hmemb⟩
        · exact ⟨b, Or.inl hb, hmemb⟩
        · obtain ⟨c, hc, hmc⟩ := ih.1 ⟨b, hb, hmemb⟩
          exact ⟨c, Or.inr hc, hmc⟩
      · rintro ⟨b, hb | hb, hmemb⟩
        · exact ⟨b, Or.inl hb, hmemb⟩
        · obtain ⟨c, hc, hmc⟩ := ih.2 ⟨b, hb, hmemb⟩
          exact ⟨c, Or.inr hc, hmc⟩
  | case3 top batch rest i hint hne =>
      exact absurd hne (fun hh => foldl_ne_nil top batch i rest hh)
  | case4 top batch rest i hint top2 heap2 hne ih =>
      rw [mergeLoop_cons_some top batch rest heap2 top2 i hint hne]
      rw [ih]
      have hperm : (top2 :: heap2).Perm (splitPieces top batch i ++ rest) := by
        rw [← hne]
        exact foldl_heapPush_perm _ rest
      have hmemiff : ∀ b : Batch H, b ∈ top2 :: heap2
          ↔ b ∈ splitPieces top batch i ++ rest := fun b => hperm.mem_iff
      have hsc := splitPieces_covers top batch i hint h
      constructor
      · rintro ⟨b, hb, hmemb⟩
        rw [hmemiff, List.mem_append] at hb
        rcases hb with hb | hb
        · rcases hsc.1 ⟨b, hb, hmemb⟩ with hc | hc
          · exact ⟨top, List.mem_cons_self _ _, hc⟩
          · exact ⟨batch, List.mem_cons_of_mem _ (List.mem_cons_self _ _), hc⟩
        · exact ⟨b, List.mem_cons_of_mem _ (List.mem_cons_of_mem _ hb), hmemb⟩
      · rintro ⟨b, hb, hmemb⟩
        rcases (List.mem_cons.1 hb) with rfl | hb2
        · obtain ⟨c, hc, hmc⟩ := hsc.2 (Or.inl hmemb)
          exact ⟨c, by rw [hmemiff, List.mem_append]; exact Or.inl hc, hmc⟩
        · rcases (List.mem_cons.1 hb2) with rfl | hb3
          · obtain ⟨c, hc, hmc⟩ := hsc.2 (Or.inr hmemb)
            exact ⟨c, by rw [hmemiff, List.mem_append]; exact Or.inl hc, hmc⟩
          · exact ⟨b, by rw [hmemiff, List.mem_append]; exact Or.inr hb3, hmemb⟩

def leLo {H : Type} (a b : Batch H) : Prop := a.range.lo ≤ b.range.lo

def rBefore {H : Type} (a b : Batch H) : Prop :=
  ∃ t, a.range.hi = some t ∧ t < b.range.lo

theorem heapPush_pairwise {H : Type} (el : Batch H) (l : List (Batch H))
    (hl : l.Pairwise leLo) : (heapPush el l).Pairwise leLo := by
  induction l with
  | nil => simp [heapPush]
  | cons x xs ih =>
      rw [List.pairwise_cons] at hl
      simp only [heapPush]
      split
      · rename_i hle
        rw [List.pairwise_cons]
        refine ⟨?_, ih hl.2⟩
        intro b hb
        rcases List.mem_cons.1 ((heapPush_perm el xs).mem_iff.1 hb) with rfl | hb2
        · exact hle
        · exact hl.1 b hb2
      · rename_i hnle
        rw [List.pairwise_cons]
        refine ⟨?_, List.pairwise_cons.2 hl⟩
        intro b hb
        rcases List.mem_cons.1 hb with rfl | hb2
        · unfold leLo
          omega
        · have h1 := hl.1 b hb2
          unfold leLo at *
          omega

theorem foldl_heapPush_pairwise {H : Type} (L l0 : List (Batch H))
    (h0 : l0.Pairwise leLo) :
    (L.foldl (fun hp b => heapPush b hp) l0).Pairwise leLo := by
  induction L generalizing l0 with
  | nil => exact h0
  | cons b L ih =>
      simp only [List.foldl_cons]
      exact ih _ (heapPush_pairwise b l0 h0)

theorem difference_wf (a b p : Range) (hwa : Range.WF a)
    (hp : p ∈ rangeDifference a b) : Range.WF p := by
  unfold rangeDifference at hp
  cases hi : rangeIntersection a b with
  | none =>
      rw [hi] at hp
      simp at hp
      subst hp
      exact hwa
  | some i =>
      rw [hi, List.mem_append] at hp
      rcases hp with hp | hp
      · split at hp <;> simp at hp
        rename_i hlt
        subst hp
        intro t ht
        simp only at ht
        cases ht
        show a.lo ≤ i.lo - 1
        omega
      · cases hit : i.hi with
        | none => simp [hit] at hp
        | some t =>
            cases hat : a.hi with
            | none =>
                simp only [hit, hat, List.mem_singleton] at hp
                subst hp
                intro tx htx
                cases htx
            | some ta =>
                simp only [hit, hat] at hp
                split at hp <;> simp at hp
                rename_i hlt
                subst hp
                intro tx htx
                simp only at htx
                cases htx
                show t + 1 ≤ ta
                omega

theorem splitPieces_wf {H : Type} (top batch : Batch H) (i : Range)
    (hint : rangeIntersection top.range batch.range = some i)
    (hwt : Range.WF top.range) (hwb : Range.WF batch.range) :
    ∀ b ∈ splitPieces top batch i, Range.WF b.range := by
  intro b hb
  unfold splitPieces at hb
  simp only [List.mem_append, List.mem_map, List.mem_singleton] at hb
  rcases hb with (⟨r, hr, rfl⟩ | ⟨r, hr, rfl⟩) | rfl
  · exact difference_wf top.range i r hwt hr
  · exact difference_wf batch.range i r hwb hr
  · exact intersection_wf _ _ _ hint

theorem splitPieces_lo_ge {H : Type} (top batch : Batch H) (i : Range)
    (hint : rangeIntersection top.range batch.range = some i)
    (htb : top.range.lo ≤ batch.range.lo) :
    ∀ b ∈ splitPieces top batch i, top.range.lo ≤ b.range.lo := by
  intro b hb
  unfold splitPieces at hb
  simp only [List.mem_append, List.mem_map, List.mem_singleton] at hb
  rcases hb with (⟨r, hr, rfl⟩ | ⟨r, hr, rfl⟩) | rfl
  · exact difference_lo_ge top.range i r hr
  · exact le_trans htb (difference_lo_ge batch.range i r hr)
  · show top.range.lo ≤ i.lo
    rw [(rangeIntersection_bounds _ _ _ hint).1]
    exact le_max_left _ _

theorem disjoint_before (a b : Range) (hint : rangeIntersection a b = none)
    (hle : a.lo ≤ b.lo) (hwa : Range.WF a) (hwb : Range.WF b) :
    ∃ t, a.hi = some t ∧ t < b.lo := by
  unfold rangeIntersection at hint
  cases hta : a.hi with
  | none =>
      cases htb : b.hi with
      | none =>
          rw [hta, htb] at hint
          simp [minOpt] at hint
      | some tb =>
          rw [hta, htb] at hint
          simp only [minOpt] at hint
          split at hint
          · cases hint
          · rename_i hg
            have := hwb tb htb
            exfalso
            omega
  | some ta =>
      cases htb : b.hi with
      | none =>
          rw [hta, htb] at hint
          simp only [minOpt] at hint
          split at hint
          · cases hint
          · rename_i hg
            exact ⟨ta, rfl, by omega⟩
      | some tb =>
          rw [hta, htb] at hint
          simp only [minOpt] at hint
          split at hint
          · cases hint
          · rename_i hg
            have := hwb tb htb
            exact ⟨ta, rfl, by omega⟩

theorem mergeLoop_sorted {H : Type} (top : Batch H) (heap : List (Batch H))
    (hsorted : (top :: heap).Pairwise leLo)
    (hwf : ∀ b ∈ top :: heap, Range.WF b.range) :
    (mergeLoop top heap).Pairwise rBefore
      ∧ (∀ b ∈ mergeLoop top heap, top.range.lo ≤ b.range.lo ∧ Range.WF b.range) := by
  induction top, heap using mergeLoop.induct with
  | case1 top =>
      rw [mergeLoop_nil]
      refine ⟨List.pairwise_singleton _ _, ?_⟩
      intro b hb
      rcases List.mem_singleton.1 hb with rfl
      exact ⟨le_refl _, hwf b (List.mem_singleton.2 rfl)⟩
  | case2 top batch rest hint ih =>
      rw [mergeLoop_cons_none top batch rest hint]
      rw [List.pairwise_cons] at hsorted
      have hwtop := hwf top (List.mem_cons_self _ _)
      have hwrest : ∀ b ∈ batch :: rest, Range.WF b.range :=
        fun b hb => hwf b (List.mem_cons_of_mem _ hb)
      obtain ⟨pw2, mem2⟩ := ih hsorted.2 hwrest
      have htb : top.range.lo ≤ batch.range.lo :=
        hsorted.1 batch (List.mem_cons_self _ _)
      obtain ⟨t, hht, hlt⟩ := disjoint_before top.range batch.range hint htb
        hwtop (hwrest batch (List.mem_cons_self _ _))
      constructor
      · rw [List.pairwise_cons]
        refine ⟨?_, pw2⟩
        intro b hb
        have hblo := (mem2 b hb).1
        exact ⟨t, hht, by omega⟩
      · intro b hb
        rcases List.mem_cons.1 hb with rfl | hb2
        · exact ⟨le_refl _, hwtop⟩
        · obtain ⟨hlo2, hwf2⟩ := mem2 b hb2
          exact ⟨le_trans htb hlo2, hwf2⟩
  | case3 top batch rest i hint hne =>
      exact absurd hne (fun hh => foldl_ne_nil top batch i rest hh)
  | case4 top batch rest i hint top2 heap2 hne ih =>
      rw [mergeLoop_cons_some top batch rest heap2 top2 i hint hne]
      rw [List.pairwise_cons] at hsorted
      have hwtop := hwf top (List.mem_cons_self _ _)
      have hwbatch := hwf batch (List.mem_cons_of_mem _ (List.mem_cons_self _ _))
      have htb : top.range.lo ≤ batch.range.lo :=
        hsorted.1 batch (List.mem_cons_self _ _)
      have hrestpw : rest.Pairwise leLo := (List.pairwise_cons.1 hsorted.2).2
      have hperm : (top2 :: heap2).Perm (splitPieces top batch i ++ rest) := by
        rw [← hne]
        exact foldl_heapPush_perm _ rest
      have hsorted2 : (top2 :: heap2).Pairwise leLo := by
        rw [← hne]
        exact foldl_heapPush_pairwise _ rest hrestpw
      have hwf2 : ∀ b ∈ top2 :: heap2, Range.WF b.range := by
        intro b hb
        rcases List.mem_append.1 (hperm.mem_iff.1 hb) with hb2 | hb2
        · exact splitPieces_wf top batch i hint hwtop hwbatch b hb2
        · exact hwf b (List.mem_cons_of_mem _ (List.mem_cons_of_mem _ hb2))
      obtain ⟨pw2, mem2⟩ := ih hsorted2 hwf2
      refine ⟨pw2, ?_⟩
      intro b hb
      obtain ⟨hlo2, hwfb⟩ := mem2 b hb
      refine ⟨le_trans ?_ hlo2, hwfb⟩
      have htop2mem : top2 ∈ splitPieces top batch i ++ rest :=
        hperm.mem_iff.1 (List.mem_cons_self _ _)
      rcases List.mem_append.1 htop2mem with h2 | h2
      · exact splitPieces_lo_ge top batch i hint htb top2 h2
      · exact le_trans htb ((List.pairwise_cons.1 hsorted.2).1 top2 h2)

theorem lookupA_cons {T : Type} (k' : String) (v : T) (m : List (String × T))
    (k : String) :
    lookupA ((k', v) :: m) k = if k' == k then some v else lookupA m k := by
  unfold lookupA
  rw [List.find?_cons]
  split
  · rename_i hc
    simp at hc
    simp [hc]
  · rename_i hc
    simp at hc
    simp [hc]

theorem lookupA_eq_none {T : Type} (m : List (String × T)) (k : String) :
    lookupA m k = none ↔ k ∉ m.map Prod.fst := by
  induction m with
  | nil => simp [lookupA]
  | cons e m ih =>
      rcases e with ⟨k', v⟩
      rw [lookupA_cons]
      by_cases hk : k' = k
      · subst hk
        simp
      · simp only [show (k' == k) = false by simp [hk], if_false]
        simp [ih, Ne.symm hk]

theorem lookupA_mem {T : Type} (m : List (String × T)) (k : String) (v : T)
    (hnd : (m.map Prod.fst).Nodup) (hm : (k, v) ∈ m) : lookupA m k = some v := by
  induction m with
  | nil => cases hm
  | cons e m ih =>
      rcases e with ⟨k', v'⟩
      rw [List.map_cons, List.nodup_cons] at hnd
      rw [lookupA_cons]
      rcases List.mem_cons.1 hm with heq | hm2
      · injection heq with h1 h2
        subst h1
        subst h2
        simp
      · have hk : k' ≠ k := by
          intro hk
          subst hk
          exact hnd.1 (List.mem_map.2 ⟨(k', v), hm2, rfl⟩)
        simp only [show (k' == k) = false by simp [hk], if_false]
        exact ih hnd.2 hm2

theorem lookupA_map_keyed {T : Type} (a : List (String × T))
    (t : String → T → T) (k : String) :
    lookupA (a.map (fun e => (e.fst, t e.fst e.snd))) k
      = (lookupA a k).map (t k) := by
  induction a with
  | nil => simp [lookupA]
  | cons e a ih =>
      rcases e with ⟨k', v⟩
      simp only [List.map_cons]
      rw [lookupA_cons, lookupA_cons]
      by_cases hk : k' = k
      · subst hk
        simp
      · simp only [show (k' == k) = false by simp [hk], if_false]
        exact ih

theorem lookupA_filter_not_in {T : Type} (a b : List (String × T)) (k : String) :
    lookupA (b.filter (fun e => (lookupA a e.fst).isNone)) k
      = match lookupA a k with
        | none => lookupA b k
        | some _ => none := by
  induction b with
  | nil =>
      simp only [List.filter_nil]
      cases lookupA a k <;> simp [lookupA]
  | cons e b ih =>
      rcases e with ⟨k', v⟩
      rw [List.filter_cons]
      by_cases hk' : (lookupA a k').isNone
      · rw [if_pos (by simpa using hk')]
        rw [lookupA_cons]
        by_cases hk : k' = k
        · subst hk
          rw [Option.isNone_iff_eq_none] at hk'
          rw [hk', lookupA_cons]
          simp
        · simp only [show (k' == k) = false by simp [hk], if_false]
          rw [ih, lookupA_cons]
          simp only [show (k' == k) = false by simp [hk], if_false]
          cases lookupA a k <;> simp
      · rw [if_neg (by simpa using hk')]
        rw [ih]
        by_cases hk : k' = k
        · subst hk
          cases hh : lookupA a k' with
          | none =>
              rw [hh] at hk'
              simp at hk'
          | some w => rfl
        · rw [lookupA_cons]
          simp only [show (k' == k) = false by simp [hk], if_false]
          cases lookupA a k <;> simp

theorem lookupA_append {T : Type} (x y : List (String × T)) (k : String) :
    lookupA (x ++ y) k = (lookupA x k).or (lookupA y k) := by
  induction x with
  | nil => simp [lookupA]
  | cons e x ih =>
      rcases e with ⟨k', v⟩
      rw [List.cons_append, lookupA_cons, lookupA_cons]
      by_cases hk : k' = k
      · subst hk
        simp
      · simp only [show (k' == k) = false by simp [hk], if_false]
        exact ih

theorem lookup_mergeMaps {T : Type} (a b : List (String × T))
    (f : T → T → T) (k : String) :
    lookupA (mergeMaps a b f) k
      = match lookupA a k, lookupA b k with
        | none, none => none
        | some v, none => some v
        | none, some w => some w
        | some v, some w => some (f v w) := by
  unfold mergeMaps
  rw [lookupA_append]
  rw [show (a.map (fun e =>
      match lookupA b e.fst with
      | none => e
      | some w => (e.fst, f e.snd w)))
    = a.map (fun e => (e.fst, match lookupA b e.fst with
      | none => e.snd
      | some w => f e.snd w)) from by
    apply List.map_congr_left
    intro e _
    cases lookupA b e.fst <;> rfl]
  rw [lookupA_map_keyed a (fun k' v => match lookupA b k' with
    | none => v
    | some w => f v w) k]
  rw [lookupA_filter_not_in a b k]
  cases ha : lookupA a k <;> cases hb : lookupA b k <;> simp [ha, hb]

def keysFinset {T : Type} (m : List (String × T)) : Finset String :=
  (m.map Prod.fst).toFinset

def contrib {T M : Type} [AddCommMonoid M] (g : String → T → M)
    (m : List (String × T)) (k : String) : M :=
  match lookupA m k with
  | none => 0
  | some v => g k v

theorem contrib_zero_of_not_mem {T M : Type} [AddCommMonoid M]
    (g : String → T → M) (m : List (String × T)) (k : String)
    (hk : k ∉ keysFinset m) : contrib g m k = 0 := by
  unfold contrib
  rw [(lookupA_eq_none m k).2 (by simpa [keysFinset] using hk)]

theorem mem_keysFinset {T : Type} (m : List (String × T)) (k : String) :
    k ∈ keysFinset m ↔ ¬ lookupA m k = none := by
  simp only [keysFinset, List.mem_toFinset]
  have h := lookupA_eq_none m k
  tauto

theorem sum_eq_keys {T M : Type} [AddCommMonoid M] (g : String → T → M)
    (m : List (String × T)) (hnd : (m.map Prod.fst).Nodup) :
    (m.map (fun e => g e.fst e.snd)).sum = ∑ k ∈ keysFinset m, contrib g m k := by
  induction m with
  | nil => simp [keysFinset]
  | cons e m ih =>
      rcases e with ⟨k', v⟩
      rw [List.map_cons, List.nodup_cons] at hnd
      have hknot : k' ∉ keysFinset m := by
        simp only [keysFinset, List.mem_toFinset]
        exact hnd.1
      rw [List.map_cons, List.sum_cons]
      rw [show keysFinset ((k', v) :: m) = insert k' (keysFinset m) from by
        simp [keysFinset]]
      rw [Finset.sum_insert hknot]
      congr 1
      · unfold contrib
        rw [lookupA_cons]
        simp
      · rw [ih hnd.2]
        apply Finset.sum_congr rfl
        intro k hk
        unfold contrib
        rw [lookupA_cons]
        have hkne : k' ≠ k := by
          intro hh
          subst hh
          exact hknot hk
        simp [show (k' == k) = false from by simp [hkne]]

theorem mergeMaps_map_fst {T : Type} (a b : List (String × T)) (f : T → T → T) :
    (mergeMaps a b f).map Prod.fst
      = a.map Prod.fst ++ (b.filter (fun e => (lookupA a e.fst).isNone)).map Prod.fst := by
  unfold mergeMaps
  rw [List.map_append]
  congr 1
  rw [List.map_map]
  apply List.map_congr_left
  intro e _
  simp only [Function.comp_apply]
  cases lookupA b e.fst <;> rfl

theorem mergeMaps_nodup {T : Type} (a b : List (String × T)) (f : T → T → T)
    (hnda : (a.map Prod.fst).Nodup) (hndb : (b.map Prod.fst).Nodup) :
    ((mergeMaps a b f).map Prod.fst).Nodup := by
  rw [mergeMaps_map_fst]
  rw [List.nodup_append]
  refine ⟨hnda, ?_, ?_⟩
  · exact List.Nodup.sublist (List.Sublist.map Prod.fst (List.filter_sublist b)) hndb
  · intro k hka hkb
    rw [List.mem_map] at hkb
    obtain ⟨e, he, rfl⟩ := hkb
    have hpred := List.of_mem_filter he
    rw [Option.isNone_iff_eq_none, lookupA_eq_none] at hpred
    exact hpred hka

theorem mergeMaps_keysFinset {T : Type} (a b : List (String × T)) (f : T → T → T) :
    keysFinset (mergeMaps a b f) = keysFinset a ∪ keysFinset b := by
  apply Finset.ext
  intro k
  rw [Finset.mem_union, mem_keysFinset, mem_keysFinset, mem_keysFinset,
    lookup_mergeMaps]
  cases lookupA a k <;> cases lookupA b k <;> simp

theorem mergeMaps_sum_hom {T M : Type} [AddCommMonoid M] (g : String → T → M)
    (f : T → T → T) (a b : List (String × T))
    (hnda : (a.map Prod.fst).Nodup) (hndb : (b.map Prod.fst).Nodup)
    (hg : ∀ k v w, lookupA a k = some v → lookupA b k = some w →
      g k (f v w) = g k v + g k w) :
    ((mergeMaps a b f).map (fun e => g e.fst e.snd)).sum
      = (a.map (fun e => g e.fst e.snd)).sum + (b.map (fun e => g e.fst e.snd)).sum := by
  rw [sum_eq_keys g _ (mergeMaps_nodup a b f hnda hndb), sum_eq_keys g a hnda,
    sum_eq_keys g b hndb, mergeMaps_keysFinset]
  rw [show ∑ k ∈ keysFinset a ∪ keysFinset b, contrib g (mergeMaps a b f) k
      = ∑ k ∈ keysFinset a ∪ keysFinset b, (contrib g a k + contrib g b k) from
    Finset.sum_congr rfl (fun k _ => by
      unfold contrib
      rw [lookup_mergeMaps]
      cases ha : lookupA a k <;> cases hb : lookupA b k <;> simp
      exact hg k _ _ ha hb)]
  rw [Finset.sum_add_distrib]
  congr 1
  · exact (Finset.sum_subset Finset.subset_union_left
      (fun k _ hknot => contrib_zero_of_not_mem g a k hknot)).symm
  · exact (Finset.sum_subset Finset.subset_union_right
      (fun k _ hknot => contrib_zero_of_not_mem g b k hknot)).symm

/-- Observation type for C2: a handler tagged with the slot and key it is
registered under, so that the handlers of a `DataHandlers` aggregate form a
multiset. -/
inductive HandlerToken (H : Type) where
  | pre (h : H)
  | post (h : H)
  | event (key : String) (h : H)
  | extrinsic (eventKey : String) (callKey : String) (h : H)
  | evmLog (address : String) (entry : EvmLogHandlerEntry H)
deriving DecidableEq

def eventTokens {H : Type} (k : String) (hs : List H) : Multiset (HandlerToken H) :=
  ↑(hs.map (HandlerToken.event k))

def extrinsicInner {H : Type} (k1 k2 : String) (hs : List H) :
    Multiset (HandlerToken H) :=
  ↑(hs.map (HandlerToken.extrinsic k1 k2))

def extrinsicTokens {H : Type} (k1 : String) (m : List (String × List H)) :
    Multiset (HandlerToken H) :=
  (m.map (fun e => extrinsicInner k1 e.fst e.snd)).sum

def evmTokens {H : Type} (k : String) (es : List (EvmLogHandlerEntry H)) :
    Multiset (HandlerToken H) :=
  ↑(es.map (HandlerToken.evmLog k))

/-- The multiset of tagged handlers of an aggregate. -/
def DataHandlers.tokens {H : Type} (d : DataHandlers H) : Multiset (HandlerToken H) :=
  ↑(d.pre.map HandlerToken.pre) + ↑(d.post.map HandlerToken.post)
    + (d.events.map (fun e => eventTokens e.fst e.snd)).sum
    + (d.extrinsics.map (fun e => extrinsicTokens e.fst e.snd)).sum
    + (d.evmLogs.map (fun e => evmTokens e.fst e.snd)).sum

/-- Well-formed keys: each keyed slot binds a key at most once (as every
record produced by the scheduler does). -/
def DataHandlers.WFkeys {H : Type} (d : DataHandlers H) : Prop :=
  (d.events.map Prod.fst).Nodup ∧ (d.extrinsics.map Prod.fst).Nodup
    ∧ (∀ e ∈ d.extrinsics, (e.snd.map Prod.fst).Nodup)
    ∧ (d.evmLogs.map Prod.fst).Nodup

theorem lookupA_some_mem {T : Type} (m : List (String × T)) (k : String) (v : T)
    (hl : lookupA m k = some v) : (k, v) ∈ m := by
  induction m with
  | nil => cases hl
  | cons e m ih =>
      rcases e with ⟨k', v'⟩
      rw [lookupA_cons] at hl
      by_cases hk : k' = k
      · subst hk
        simp at hl
        subst hl
        exact List.mem_cons_self _ _
      · simp only [show (k' == k) = false by simp [hk], if_false] at hl
        exact List.mem_cons_of_mem _ (ih hl)

theorem mergeMaps_mem {T : Type} (a b : List (String × T)) (f : T → T → T)
    (e : String × T) (he : e ∈ mergeMaps a b f) :
    e ∈ a ∨ (∃ k v w, e = (k, f v w) ∧ (k, v) ∈ a ∧ lookupA b k = some w)
      ∨ e ∈ b := by
  unfold mergeMaps at he
  rcases List.mem_append.1 he with he2 | he2
  · rw [List.mem_map] at he2
    obtain ⟨e0, he0, heq⟩ := he2
    cases hb : lookupA b e0.fst with
    | none =>
        rw [hb] at heq
        subst heq
        exact Or.inl he0
    | some w =>
        rw [hb] at heq
        subst heq
        exact Or.inr (Or.inl ⟨e0.fst, e0.snd, w, rfl, by
          rcases e0 with ⟨k0, v0⟩
          exact he0, hb⟩)
  · exact Or.inr (Or.inr (List.mem_of_mem_filter he2))

theorem mergeDataHandlers_WFkeys {H : Type} (a b : DataHandlers H)
    (ha : a.WFkeys) (hb : b.WFkeys) : (mergeDataHandlers a b).WFkeys := by
  obtain ⟨ha1, ha2, ha3, ha4⟩ := ha
  obtain ⟨hb1, hb2, hb3, hb4⟩ := hb
  unfold DataHandlers.WFkeys mergeDataHandlers
  simp only
  refine ⟨mergeMaps_nodup _ _ _ ha1 hb1, mergeMaps_nodup _ _ _ ha2 hb2, ?_,
    mergeMaps_nodup _ _ _ ha4 hb4⟩
  intro e he
  rcases mergeMaps_mem _ _ _ e he with he2 | ⟨k, v, w, heq, hmem, hlk⟩ | he2
  · exact ha3 e he2
  · subst heq
    exact mergeMaps_nodup _ _ _ (ha3 (k, v) hmem)
      (hb3 (k, w) (lookupA_some_mem _ _ _ hlk))
  · exact hb3 e he2

theorem mergeDataHandlers_tokens {H : Type} (a b : DataHandlers H)
    (ha : a.WFkeys) (hb : b.WFkeys) :
    (mergeDataHandlers a b).tokens = a.tokens + b.tokens := by
  obtain ⟨ha1, ha2, ha3, ha4⟩ := ha
  obtain ⟨hb1, hb2, hb3, hb4⟩ := hb
  unfold mergeDataHandlers DataHandlers.tokens
  simp only
  have hpre : (((a.pre ++ b.pre).map HandlerToken.pre : List (HandlerToken H)) :
      Multiset (HandlerToken H))
      = ↑(a.pre.map HandlerToken.pre) + ↑(b.pre.map HandlerToken.pre) := by
    rw [List.map_append]
    exact (Multiset.coe_add _ _)
  have hpost : (((a.post ++ b.post).map HandlerToken.post : List (HandlerToken H)) :
      Multiset (HandlerToken H))
      = ↑(a.post.map HandlerToken.post) + ↑(b.post.map HandlerToken.post) := by
    rw [List.map_append]
    exact (Multiset.coe_add _ _)
  have hev : ((mergeMaps a.events b.events (fun ha hb => ha ++ hb)).map
        (fun e => eventTokens e.fst e.snd)).sum
      = (a.events.map (fun e => eventTokens e.fst e.snd)).sum
        + (b.events.map (fun e => eventTokens e.fst e.snd)).sum := by
    apply mergeMaps_sum_hom (fun k hs => eventTokens k hs) _ _ _ ha1 hb1
    intro k v w _ _
    unfold eventTokens
    rw [List.map_append]
    exact (Multiset.coe_add _ _)
  have hex : ((mergeMaps a.extrinsics b.extrinsics
        (fun ea eb => mergeMaps ea eb (fun ha hb => ha ++ hb))).map
        (fun e => extrinsicTokens e.fst e.snd)).sum
      = (a.extrinsics.map (fun e => extrinsicTokens e.fst e.snd)).sum
        + (b.extrinsics.map (fun e => extrinsicTokens e.fst e.snd)).sum := by
    apply mergeMaps_sum_hom (fun k m => extrinsicTokens k m) _ _ _ ha2 hb2
    intro k v w hv hw
    unfold extrinsicTokens
    apply mergeMaps_sum_hom (fun k2 hs => extrinsicInner k k2 hs) _ _ _
      (ha3 (k, v) (lookupA_some_mem _ _ _ hv))
      (hb3 (k, w) (lookupA_some_mem _ _ _ hw))
    intro k2 v2 w2 _ _
    unfold extrinsicInner
    rw [List.map_append]
    exact (Multiset.coe_add _ _)
  have hevm : ((mergeMaps a.evmLogs b.evmLogs (fun ha hb => ha ++ hb)).map
        (fun e => evmTokens e.fst e.snd)).sum
      = (a.evmLogs.map (fun e => evmTokens e.fst e.snd)).sum
        + (b.evmLogs.map (fun e => evmTokens e.fst e.snd)).sum := by
    apply mergeMaps_sum_hom (fun k es => evmTokens k es) _ _ _ ha4 hb4
    intro k v w _ _
    unfold evmTokens
    rw [List.map_append]
    exact (Multiset.coe_add _ _)
  rw [hpre, hpost, hev, hex, hevm]
  abel

/-- The tagged handlers a batch list applies at height `h`: the sum of the
token multisets of the batches whose range contains `h`. -/
def coveredTokens {H : Type} (h : Nat) (l : List (Batch H)) :
    Multiset (HandlerToken H) :=
  (l.map (fun b => if b.range.containsH h = true then b.handlers.tokens else 0)).sum

theorem sum_ite_pairwise {M : Type} [AddCommMonoid M] (l : List Range) (h : Nat)
    (w : M)
    (hpw : l.Pairwise (fun p q => ¬(p.containsH h = true ∧ q.containsH h = true))) :
    (l.map (fun r => if r.containsH h = true then w else 0)).sum
      = if ∃ r ∈ l, r.containsH h = true then w else 0 := by
  induction l with
  | nil => simp
  | cons r l ih =>
      rw [List.pairwise_cons] at hpw
      rw [List.map_cons, List.sum_cons, ih hpw.2]
      by_cases hr : r.containsH h = true
      · have hnone : ¬ ∃ q ∈ l, q.containsH h = true := by
          rintro ⟨q, hq, hqc⟩
          exact hpw.1 q hq ⟨hr, hqc⟩
        rw [if_pos hr, if_neg hnone, if_pos ⟨r, List.mem_cons_self _ _, hr⟩]
        simp
      · rw [if_neg hr]
        by_cases hex : ∃ q ∈ l, q.containsH h = true
        · rw [if_pos hex, if_pos (by
            obtain ⟨q, hq, hqc⟩ := hex
            exact ⟨q, List.mem_cons_of_mem _ hq, hqc⟩)]
          simp
        · rw [if_neg hex, if_neg (by
            rintro ⟨q, hq, hqc⟩
            rcases List.mem_cons.1 hq with rfl | hq2
            · exact hr hqc
            · exact hex ⟨q, hq2, hqc⟩)]
          simp

theorem sum_ite_diff {M : Type} [AddCommMonoid M] (a b : Range) (h : Nat) (w : M) :
    ((rangeDifference a b).map (fun r => if r.containsH h = true then w else 0)).sum
      = if a.containsH h = true ∧ ¬ b.containsH h = true then w else 0 := by
  rw [sum_ite_pairwise _ h w (difference_pairwise a b h)]
  by_cases hc : a.containsH h = true ∧ ¬ b.containsH h = true
  · rw [if_pos hc, if_pos ((difference_mem a b h).2 hc)]
  · rw [if_neg hc, if_neg (fun hex => hc ((difference_mem a b h).1 hex))]

theorem splitPieces_tokens {H : Type} (top batch : Batch H) (i : Range)
    (hint : rangeIntersection top.range batch.range = some i)
    (hwk1 : top.handlers.WFkeys) (hwk2 : batch.handlers.WFkeys) (h : Nat) :
    coveredTokens h (splitPieces top batch i)
      = (if top.range.containsH h = true then top.handlers.tokens else 0)
        + (if batch.range.containsH h = true then batch.handlers.tokens else 0) := by
  have hic := containsH_inter top.range batch.range i hint h
  unfold coveredTokens splitPieces
  rw [List.map_append, List.map_append, List.sum_append, List.sum_append]
  rw [List.map_map, List.map_map]
  rw [show ((fun b : Batch H => if b.range.containsH h = true then b.handlers.tokens else 0)
      ∘ fun r => Batch.mk r top.handlers)
    = (fun r : Range => if r.containsH h = true then top.handlers.tokens else 0) from rfl]
  rw [show ((fun b : Batch H => if b.range.containsH h = true then b.handlers.tokens else 0)
      ∘ fun r => Batch.mk r batch.handlers)
    = (fun r : Range => if r.containsH h = true then batch.handlers.tokens else 0) from rfl]
  rw [sum_ite_diff, sum_ite_diff]
  rw [List.map_singleton, List.sum_singleton]
  rw [show (Batch.mk i (mergeDataHandlers top.handlers batch.handlers)).handlers.tokens
    = top.handlers.tokens + batch.handlers.tokens from
    mergeDataHandlers_tokens _ _ hwk1 hwk2]
  by_cases hT : top.range.containsH h = true <;> by_cases hB : batch.range.containsH h = true
  · have hI : i.containsH h = true := hic.2 ⟨hT, hB⟩
    rw [if_pos hT, if_pos hB, if_pos hI]
    rw [if_neg (fun hc => hc.2 hI), if_neg (fun hc => hc.2 hI)]
    simp
  · have hI : ¬ i.containsH h = true := fun hh => hB (hic.1 hh).2
    rw [if_pos hT, if_neg hB, if_neg hI]
    rw [if_pos ⟨hT, hI⟩, if_neg (fun hc => hB hc.1)]
    simp
  · have hI : ¬ i.containsH h = true := fun hh => hT (hic.1 hh).1
    rw [if_neg hT, if_pos hB, if_neg hI]
    rw [if_neg (fun hc => hT hc.1), if_pos ⟨hB, hI⟩]
    simp
  · have hI : ¬ i.containsH h = true := fun hh => hT (hic.1 hh).1
    rw [if_neg hT, if_neg hB, if_neg hI]
    rw [if_neg (fun hc => hT hc.1), if_neg (fun hc => hB hc.1)]
    simp

theorem coveredTokens_perm {H : Type} (h : Nat) (l l' : List (Batch H))
    (hp : l.Perm l') : coveredTokens h l = coveredTokens h l' :=
  List.Perm.sum_eq (hp.map _)

theorem coveredTokens_append {H : Type} (h : Nat) (l l' : List (Batch H)) :
    coveredTokens h (l ++ l') = coveredTokens h l + coveredTokens h l' := by
  unfold coveredTokens
  rw [List.map_append, List.sum_append]

theorem mergeLoop_tokens {H : Type} (top : Batch H) (heap : List (Batch H))
    (hWF : ∀ b ∈ top :: heap, b.handlers.WFkeys) (h : Nat) :
    coveredTokens h (mergeLoop top heap) = coveredTokens h (top :: heap) := by
  induction top, heap using mergeLoop.induct with
  | case1 top => rw [mergeLoop_nil]
  | case2 top batch rest hint ih =>
      rw [mergeLoop_cons_none top batch rest hint]
      have hWF2 : ∀ b ∈ batch :: rest, b.handlers.WFkeys :=
        fun b hb => hWF b (List.mem_cons_of_mem _ hb)
      rw [show (top :: mergeLoop batch rest) = [top] ++ mergeLoop batch rest from rfl]
      rw [show (top :: batch :: rest) = [top] ++ (batch :: rest) from rfl]
      rw [coveredTokens_append, coveredTokens_append, ih hWF2]
  | case3 top batch rest i hint hne =>
      exact absurd hne (fun hh => foldl_ne_nil top batch i rest hh)
  | case4 top batch rest i hint top2 heap2 hne ih =>
      rw [mergeLoop_cons_some top batch rest heap2 top2 i hint hne]
      have hperm : (top2 :: heap2).Perm (splitPieces top batch i ++ rest) := by
        rw [← hne]
        exact foldl_heapPush_perm _ rest
      have hwktop := hWF top (List.mem_cons_self _ _)
      have hwkbatch := hWF batch (List.mem_cons_of_mem _ (List.mem_cons_self _ _))
      have hWF2 : ∀ b ∈ top2 :: heap2, b.handlers.WFkeys := by
        intro b hb
        rcases List.mem_append.1 (hperm.mem_iff.1 hb) with hb2 | hb2
        · unfold splitPieces at hb2
          simp only [List.mem_append, List.mem_map, List.mem_singleton] at hb2
          rcases hb2 with (⟨r, _, rfl⟩ | ⟨r, _, rfl⟩) | rfl
          · exact hwktop
          · exact hwkbatch
          · exact mergeDataHandlers_WFkeys _ _ hwktop hwkbatch
        · exact hWF b (List.mem_cons_of_mem _ (List.mem_cons_of_mem _ hb2))
      rw [ih hWF2]
      rw [coveredTokens_perm h _ _ hperm, coveredTokens_append]
      rw [splitPieces_tokens top batch i hint hwktop hwkbatch h]
      rw [show (top :: batch :: rest) = [top] ++ ([batch] ++ rest) from rfl]
      rw [coveredTokens_append, coveredTokens_append]
      unfold coveredTokens
      simp only [List.map_singleton, List.sum_singleton]
      abel

theorem heapInit_perm {H : Type} (l : List (Batch H)) : (heapInit l).Perm l := by
  unfold heapInit
  have h := foldl_heapPush_perm l []
  simpa using h

theorem heapInit_pairwise {H : Type} (l : List (Batch H)) :
    (heapInit l).Pairwise leLo :=
  foldl_heapPush_pairwise l [] (List.Pairwise.nil)

theorem mergeBatches_covers {H : Type} (l : List (Batch H)) (h : Nat) :
    (∃ b ∈ mergeBatches l, b.range.containsH h = true)
      ↔ (∃ b ∈ l, b.range.containsH h = true) := by
  unfold mergeBatches
  split
  · exact Iff.rfl
  · rename_i hlen
    split
    · rename_i hinit
      have hperm := heapInit_perm l
      rw [hinit] at hperm
      have hnil : l = [] := hperm.symm.eq_nil
      subst hnil
      simp at hlen
    · rename_i top heap hinit
      have hperm := heapInit_perm l
      rw [hinit] at hperm
      rw [mergeLoop_covers top heap h]
      constructor
      · rintro ⟨b, hb, hc⟩
        exact ⟨b, hperm.mem_iff.1 hb, hc⟩
      · rintro ⟨b, hb, hc⟩
        exact ⟨b, hperm.mem_iff.2 hb, hc⟩

theorem mergeBatches_sorted {H : Type} (l : List (Batch H))
    (hwf : ∀ b ∈ l, Range.WF b.range) :
    (mergeBatches l).Pairwise rBefore
      ∧ ∀ b ∈ mergeBatches l, Range.WF b.range := by
  unfold mergeBatches
  split
  · rename_i hlen
    match l with
    | [] => exact ⟨List.Pairwise.nil, by simp⟩
    | [b] =>
        refine ⟨List.pairwise_singleton _ _, ?_⟩
        intro c hc
        rcases List.mem_singleton.1 hc with rfl
        exact hwf c (List.mem_singleton.2 rfl)
    | b1 :: b2 :: bs => simp at hlen
  · rename_i hlen
    split
    · rename_i hinit
      exact ⟨List.Pairwise.nil, by simp⟩
    · rename_i top heap hinit
      have hperm := heapInit_perm l
      rw [hinit] at hperm
      have hpw : (top :: heap).Pairwise leLo := by
        rw [← hinit]
        exact heapInit_pairwise l
      have hwf2 : ∀ b ∈ top :: heap, Range.WF b.range :=
        fun b hb => hwf b (hperm.mem_iff.1 hb)
      obtain ⟨h1, h2⟩ := mergeLoop_sorted top heap hpw hwf2
      exact ⟨h1, fun b hb => (h2 b hb).2⟩

theorem mergeBatches_tokens {H : Type} (l : List (Batch H))
    (hWF : ∀ b ∈ l, b.handlers.WFkeys) (h : Nat) :
    coveredTokens h (mergeBatches l) = coveredTokens h l := by
  unfold mergeBatches
  split
  · rfl
  · rename_i hlen
    split
    · rename_i hinit
      have hperm := heapInit_perm l
      rw [hinit] at hperm
      have hnil : l = [] := hperm.symm.eq_nil
      subst hnil
      simp at hlen
    · rename_i top heap hinit
      have hperm := heapInit_perm l
      rw [hinit] at hperm
      rw [mergeLoop_tokens top heap (fun b hb => hWF b (hperm.mem_iff.1 hb)) h]
      exact coveredTokens_perm h _ _ hperm

theorem rBefore_disjoint {H : Type} (a b : Batch H) (hr : rBefore a b) (h : Nat) :
    ¬ (a.range.containsH h = true ∧ b.range.containsH h = true) := by
  obtain ⟨t, hht, hlt⟩ := hr
  rintro ⟨ha, hb⟩
  rw [containsH_iff] at ha hb
  have := ha.2 t hht
  have := hb.1
  omega

theorem coveredTokens_zero {H : Type} (h : Nat) (l : List (Batch H))
    (hz : ∀ b ∈ l, ¬ b.range.containsH h = true) : coveredTokens h l = 0 := by
  induction l with
  | nil => rfl
  | cons b l ih =>
      unfold coveredTokens
      rw [List.map_cons, List.sum_cons]
      rw [if_neg (hz b (List.mem_cons_self _ _))]
      rw [show (List.map (fun b => if b.range.containsH h = true
          then b.handlers.tokens else 0) l).sum = coveredTokens h l from rfl]
      rw [ih (fun c hc => hz c (List.mem_cons_of_mem _ hc))]
      simp

theorem coveredTokens_unique {H : Type} (h : Nat) (l : List (Batch H)) (b : Batch H)
    (hb : b ∈ l) (hcov : b.range.containsH h = true)
    (hdis : l.Pairwise (fun x y => ¬(x.range.containsH h = true
      ∧ y.range.containsH h = true))) :
    coveredTokens h l = b.handlers.tokens := by
  induction l with
  | nil => cases hb
  | cons c l ih =>
      rw [List.pairwise_cons] at hdis
      unfold coveredTokens
      rw [List.map_cons, List.sum_cons]
      rw [show (List.map (fun b => if b.range.containsH h = true
          then b.handlers.tokens else 0) l).sum = coveredTokens h l from rfl]
      rcases List.mem_cons.1 hb with rfl | hb2
      · rw [if_pos hcov]
        rw [coveredTokens_zero h l (fun c hc hcont => hdis.1 c hc ⟨hcov, hcont⟩)]
        simp
      · have hcnot : ¬ c.range.containsH h = true :=
          fun hcont => hdis.1 b hb2 ⟨hcont, hcov⟩
        rw [if_neg hcnot, ih hb2 hdis.2]
        simp

/-- A registration with range `hookRange` is active at height `h` under the
optional global range: its defaulted range contains `h` and so does the
global range if present. -/
def regActiveB (hookRange : Option Range) (blockRange : Option Range) (h : Nat) : Bool :=
  (hookRange.getD ⟨0, none⟩).containsH h
    && (match blockRange with
        | none => true
        | some r => r.containsH h)

theorem getRange_covers (hookRange blockRange : Option Range) (h : Nat) :
    (∃ r, getRange hookRange blockRange = some r ∧ r.containsH h = true)
      ↔ regActiveB hookRange blockRange h = true := by
  unfold getRange regActiveB
  cases blockRange with
  | none =>
      simp only [Option.some.injEq, Bool.and_eq_true]
      constructor
      · rintro ⟨r, rfl, hc⟩
        exact ⟨hc, trivial⟩
      · rintro ⟨hc, _⟩
        exact ⟨_, rfl, hc⟩

  | some br =>
      simp only [Bool.and_eq_true]
      constructor
      · rintro ⟨r, hr, hc⟩
        have := (containsH_inter _ _ _ hr h).1 hc
        exact ⟨this.1, this.2⟩
      · rintro ⟨hc, hcb⟩
        obtain ⟨i, hi, hic⟩ := intersection_some_of_mem _ _ h hc hcb
        exact ⟨i, hi, hic⟩

theorem getRange_wf (hookRange blockRange : Option Range) (r : Range)
    (hwf : Range.WF (hookRange.getD ⟨0, none⟩))
    (hr : getRange hookRange blockRange = some r) : Range.WF r := by
  unfold getRange at hr
  cases blockRange with
  | none =>
      injection hr with hr
      subst hr
      exact hwf
  | some br => exact intersection_wf _ _ _ hr

theorem part_covers {H A : Type} (f : A → Option Range) (g : A → DataHandlers H)
    (br : Option Range) (L : List A) (h : Nat) :
    (∃ b ∈ L.filterMap (fun a => (getRange (f a) br).map
        (fun r => Batch.mk r (g a))), b.range.containsH h = true)
      ↔ ∃ a ∈ L, regActiveB (f a) br h = true := by
  constructor
  · rintro ⟨b, hb, hc⟩
    rw [List.mem_filterMap] at hb
    obtain ⟨a, ha, hmap⟩ := hb
    rw [Option.map_eq_some'] at hmap
    obtain ⟨r, hr, rfl⟩ := hmap
    exact ⟨a, ha, (getRange_covers (f a) br h).1 ⟨r, hr, hc⟩⟩
  · rintro ⟨a, ha, hact⟩
    obtain ⟨r, hr, hc⟩ := (getRange_covers (f a) br h).2 hact
    exact ⟨Batch.mk r (g a), List.mem_filterMap.2 ⟨a, ha, by rw [hr]; rfl⟩, hc⟩

theorem part_wf {H A : Type} (f : A → Option Range) (g : A → DataHandlers H)
    (br : Option Range) (L : List A)
    (hwf : ∀ a ∈ L, Range.WF ((f a).getD ⟨0, none⟩)) :
    ∀ b ∈ L.filterMap (fun a => (getRange (f a) br).map
        (fun r => Batch.mk r (g a))), Range.WF b.range := by
  intro b hb
  rw [List.mem_filterMap] at hb
  obtain ⟨a, ha, hmap⟩ := hb
  rw [Option.map_eq_some'] at hmap
  obtain ⟨r, hr, rfl⟩ := hmap
  exact getRange_wf (f a) br r (hwf a ha) hr

theorem part_WFkeys {H A : Type} (f : A → Option Range) (g : A → DataHandlers H)
    (br : Option Range) (L : List A) (hk : ∀ a, (g a).WFkeys) :
    ∀ b ∈ L.filterMap (fun a => (getRange (f a) br).map
        (fun r => Batch.mk r (g a))), b.handlers.WFkeys := by
  intro b hb
  rw [List.mem_filterMap] at hb
  obtain ⟨a, ha, hmap⟩ := hb
  rw [Option.map_eq_some'] at hmap
  obtain ⟨r, hr, rfl⟩ := hmap
  exact hk a

theorem part_tokens {H A : Type} (f : A → Option Range) (g : A → DataHandlers H)
    (br : Option Range) (L : List A) (h : Nat)
    (tk : A → Multiset (HandlerToken H)) (htk : ∀ a, (g a).tokens = tk a) :
    coveredTokens h (L.filterMap (fun a => (getRange (f a) br).map
        (fun r => Batch.mk r (g a))))
      = (L.map (fun a => if regActiveB (f a) br h = true then tk a else 0)).sum := by
  induction L with
  | nil => rfl
  | cons a L ih =>
      rw [List.map_cons, List.sum_cons, List.filterMap_cons]
      cases hr : getRange (f a) br with
      | none =>
          simp only [Option.map_none']
          rw [ih]
          have hact : ¬ regActiveB (f a) br h = true := by
            intro hact
            obtain ⟨r, hr2, _⟩ := (getRange_covers (f a) br h).2 hact
            rw [hr] at hr2
            cases hr2
          rw [if_neg hact]
          simp
      | some r =>
          simp only [Option.map_some']
          unfold coveredTokens
          rw [List.map_cons, List.sum_cons]
          rw [show (List.map (fun b => if b.range.containsH h = true
              then b.handlers.tokens else 0) (L.filterMap (fun a =>
                (getRange (f a) br).map (fun r => Batch.mk r (g a))))).sum
            = coveredTokens h (L.filterMap (fun a => (getRange (f a) br).map
                (fun r => Batch.mk r (g a)))) from rfl]
          rw [ih]
          congr 1
          by_cases hc : r.containsH h = true
          · rw [if_pos hc, if_pos ((getRange_covers (f a) br h).1 ⟨r, hr, hc⟩)]
            exact htk a
          · rw [if_neg hc, if_neg (by
              intro hact
              obtain ⟨r2, hr2, hc2⟩ := (getRange_covers (f a) br h).2 hact
              rw [hr] at hr2
              injection hr2 with hr2
              subst hr2
              exact hc hc2)]

/-- The declared ranges of all registrations, in slot order. -/
def hookRanges {H : Type} (hooks : Hooks H) : List (Option Range) :=
  hooks.pre.map (fun hook => hook.range)
    ++ hooks.post.map (fun hook => hook.range)
    ++ hooks.event.map (fun hook => hook.range)
    ++ hooks.extrinsic.map (fun hook => hook.range)
    ++ hooks.evmLog.map (fun hook => hook.range)

/-- Spec-side (claim C2): the multiset of tagged handlers of exactly those
registrations active at height `h`, read off the raw registration list. -/
def registrationTokens {H : Type} (hooks : Hooks H) (br : Option Range) (h : Nat) :
    Multiset (HandlerToken H) :=
  (hooks.pre.map (fun hook => if regActiveB hook.range br h = true
      then ({HandlerToken.pre hook.handler} : Multiset (HandlerToken H)) else 0)).sum
  + (hooks.post.map (fun hook => if regActiveB hook.range br h = true
      then ({HandlerToken.post hook.handler} : Multiset (HandlerToken H)) else 0)).sum
  + (hooks.event.map (fun hook => if regActiveB hook.range br h = true
      then ({HandlerToken.event hook.event hook.handler} : Multiset (HandlerToken H)) else 0)).sum
  + (hooks.extrinsic.map (fun hook => if regActiveB hook.range br h = true
      then ({HandlerToken.extrinsic hook.event hook.extrinsic hook.handler} :
        Multiset (HandlerToken H)) else 0)).sum
  + (hooks.evmLog.map (fun hook => if regActiveB hook.range br h = true
      then ({HandlerToken.evmLog hook.contractAddress ⟨hook.filter, hook.handler⟩} :
        Multiset (HandlerToken H)) else 0)).sum

theorem preTokens_singleton {H : Type} (h : H) :
    (DataHandlers.mk [h] [] [] [] []).tokens = ({HandlerToken.pre h} : Multiset _) := by
  unfold DataHandlers.tokens
  simp

theorem postTokens_singleton {H : Type} (h : H) :
    (DataHandlers.mk [] [h] [] [] []).tokens = ({HandlerToken.post h} : Multiset _) := by
  unfold DataHandlers.tokens
  simp

theorem eventTokens_singleton {H : Type} (k : String) (h : H) :
    (DataHandlers.mk [] [] [(k, [h])] [] []).tokens
      = ({HandlerToken.event k h} : Multiset _) := by
  unfold DataHandlers.tokens
  simp [eventTokens]

theorem extrinsicTokens_singleton {H : Type} (k1 k2 : String) (h : H) :
    (DataHandlers.mk [] [] [] [(k1, [(k2, [h])])] []).tokens
      = ({HandlerToken.extrinsic k1 k2 h} : Multiset _) := by
  unfold DataHandlers.tokens
  simp [extrinsicTokens, extrinsicInner]

theorem evmTokens_singleton {H : Type} (k : String) (e : EvmLogHandlerEntry H) :
    (DataHandlers.mk [] [] [] [] [(k, [e])]).tokens
      = ({HandlerToken.evmLog k e} : Multiset _) := by
  unfold DataHandlers.tokens
  simp [evmTokens]

theorem singleton_WFkeys_pre {H : Type} (h : H) :
    (DataHandlers.mk [h] [] [] [] [] : DataHandlers H).WFkeys := by
  refine ⟨by simp, by simp, ?_, by simp⟩
  intro e he
  cases he

theorem singleton_WFkeys_post {H : Type} (h : H) :
    (DataHandlers.mk [] [h] [] [] [] : DataHandlers H).WFkeys := by
  refine ⟨by simp, by simp, ?_, by simp⟩
  intro e he
  cases he

theorem singleton_WFkeys_event {H : Type} (k : String) (h : H) :
    (DataHandlers.mk [] [] [(k, [h])] [] [] : DataHandlers H).WFkeys := by
  refine ⟨by simp, by simp, ?_, by simp⟩
  intro e he
  cases he

theorem singleton_WFkeys_extrinsic {H : Type} (k1 k2 : String) (h : H) :
    (DataHandlers.mk [] [] [] [(k1, [(k2, [h])])] [] : DataHandlers H).WFkeys := by
  refine ⟨by simp, by simp, ?_, by simp⟩
  intro e he
  rcases List.mem_singleton.1 he with rfl
  simp

theorem singleton_WFkeys_evm {H : Type} (k : String) (e : EvmLogHandlerEntry H) :
    (DataHandlers.mk [] [] [] [] [(k, [e])] : DataHandlers H).WFkeys := by
  refine ⟨by simp, by simp, ?_, by simp⟩
  intro e2 he
  cases he

theorem regActiveB_iff (hookRange br : Option Range) (h : Nat) :
    regActiveB hookRange br h = true
      ↔ ((hookRange.getD ⟨0, none⟩).containsH h = true
          ∧ ∀ r, br = some r → r.containsH h = true) := by
  unfold regActiveB
  cases br <;> simp

theorem singletonBatches_wf {H : Type} (hooks : Hooks H) (br : Option Range)
    (hwf : ∀ or ∈ hookRanges hooks, Range.WF (or.getD ⟨0, none⟩)) :
    ∀ b ∈ singletonBatches hooks br, Range.WF b.range := by
  intro b hb
  unfold singletonBatches at hb
  simp only [List.mem_append] at hb
  have hmem : ∀ (or : Option Range), or ∈ hookRanges hooks →
      Range.WF (or.getD ⟨0, none⟩) := hwf
  rcases hb with ((((hb | hb) | hb) | hb) | hb)
  · refine part_wf _ _ br hooks.pre ?_ b hb
    intro a ha
    apply hmem
    unfold hookRanges
    simp only [List.mem_append, List.mem_map]
    exact Or.inl (Or.inl (Or.inl (Or.inl ⟨a, ha, rfl⟩)))
  · refine part_wf _ _ br hooks.post ?_ b hb
    intro a ha
    apply hmem
    unfold hookRanges
    simp only [List.mem_append, List.mem_map]
    exact Or.inl (Or.inl (Or.inl (Or.inr ⟨a, ha, rfl⟩)))
  · refine part_wf _ _ br hooks.event ?_ b hb
    intro a ha
    apply hmem
    unfold hookRanges
    simp only [List.mem_append, List.mem_map]
    exact Or.inl (Or.inl (Or.inr ⟨a, ha, rfl⟩))
  · refine part_wf _ _ br hooks.extrinsic ?_ b hb
    intro a ha
    apply hmem
    unfold hookRanges
    simp only [List.mem_append, List.mem_map]
    exact Or.inl (Or.inr ⟨a, ha, rfl⟩)
  · refine part_wf _ _ br hooks.evmLog ?_ b hb
    intro a ha
    apply hmem
    unfold hookRanges
    simp only [List.mem_append, List.mem_map]
    exact Or.inr ⟨a, ha, rfl⟩

theorem singletonBatches_WFkeys {H : Type} (hooks : Hooks H) (br : Option Range) :
    ∀ b ∈ singletonBatches hooks br, b.handlers.WFkeys := by
  intro b hb
  unfold singletonBatches at hb
  simp only [List.mem_append] at hb
  rcases hb with ((((hb | hb) | hb) | hb) | hb)
  · exact part_WFkeys _ _ br hooks.pre (fun a => singleton_WFkeys_pre a.handler) b hb
  · exact part_WFkeys _ _ br hooks.post (fun a => singleton_WFkeys_post a.handler) b hb
  · exact part_WFkeys _ _ br hooks.event
      (fun a => singleton_WFkeys_event a.event a.handler) b hb
  · exact part_WFkeys _ _ br hooks.extrinsic
      (fun a => singleton_WFkeys_extrinsic a.event a.extrinsic a.handler) b hb
  · exact part_WFkeys _ _ br hooks.evmLog
      (fun a => singleton_WFkeys_evm a.contractAddress ⟨a.filter, a.handler⟩) b hb

theorem singletonBatches_covers {H : Type} (hooks : Hooks H) (br : Option Range)
    (h : Nat) :
    (∃ b ∈ singletonBatches hooks br, b.range.containsH h = true)
      ↔ ((∃ or ∈ hookRanges hooks, (or.getD ⟨0, none⟩).containsH h = true)
          ∧ ∀ r, br = some r → r.containsH h = true) := by
  unfold singletonBatches
  simp only [List.mem_append]
  constructor
  · rintro ⟨b, hb, hc⟩
    rcases hb with ((((hb | hb) | hb) | hb) | hb)
    · obtain ⟨a, ha, hact⟩ := (part_covers _ _ br hooks.pre h).1 ⟨b, hb, hc⟩
      rw [regActiveB_iff] at hact
      refine ⟨⟨a.range, ?_, hact.1⟩, hact.2⟩
      unfold hookRanges
      simp only [List.mem_append, List.mem_map]
      exact Or.inl (Or.inl (Or.inl (Or.inl ⟨a, ha, rfl⟩)))
    · obtain ⟨a, ha, hact⟩ := (part_covers _ _ br hooks.post h).1 ⟨b, hb, hc⟩
      rw [regActiveB_iff] at hact
      refine ⟨⟨a.range, ?_, hact.1⟩, hact.2⟩
      unfold hookRanges
      simp only [List.mem_append, List.mem_map]
      exact Or.inl (Or.inl (Or.inl (Or.inr ⟨a, ha, rfl⟩)))
    · obtain ⟨a, ha, hact⟩ := (part_covers _ _ br hooks.event h).1 ⟨b, hb, hc⟩
      rw [regActiveB_iff] at hact
      refine ⟨⟨a.range, ?_, hact.1⟩, hact.2⟩
      unfold hookRanges
      simp only [List.mem_append, List.mem_map]
      exact Or.inl (Or.inl (Or.inr ⟨a, ha, rfl⟩))
    · obtain ⟨a, ha, hact⟩ := (part_covers _ _ br hooks.extrinsic h).1 ⟨b, hb, hc⟩
      rw [regActiveB_iff] at hact
      refine ⟨⟨a.range, ?_, hact.1⟩, hact.2⟩
      unfold hookRanges
      simp only [List.mem_append, List.mem_map]
      exact Or.inl (Or.inr ⟨a, ha, rfl⟩)
    · obtain ⟨a, ha, hact⟩ := (part_covers _ _ br hooks.evmLog h).1 ⟨b, hb, hc⟩
      rw [regActiveB_iff] at hact
      refine ⟨⟨a.range, ?_, hact.1⟩, hact.2⟩
      unfold hookRanges
      simp only [List.mem_append, List.mem_map]
      exact Or.inr ⟨a, ha, rfl⟩
  · rintro ⟨⟨or, hor, hoc⟩, hbr⟩
    unfold hookRanges at hor
    simp only [List.mem_append, List.mem_map] at hor
    rcases hor with ((((⟨a, ha, rfl⟩ | ⟨a, ha, rfl⟩) | ⟨a, ha, rfl⟩) | ⟨a, ha, rfl⟩) | ⟨a, ha, rfl⟩)
    · obtain ⟨b, hb, hc⟩ := (part_covers _ _ br hooks.pre h).2
        ⟨a, ha, (regActiveB_iff _ br h).2 ⟨hoc, hbr⟩⟩
      exact ⟨b, Or.inl (Or.inl (Or.inl (Or.inl hb))), hc⟩
    · obtain ⟨b, hb, hc⟩ := (part_covers _ _ br hooks.post h).2
        ⟨a, ha, (regActiveB_iff _ br h).2 ⟨hoc, hbr⟩⟩
      exact ⟨b, Or.inl (Or.inl (Or.inl (Or.inr hb))), hc⟩
    · obtain ⟨b, hb, hc⟩ := (part_covers _ _ br hooks.event h).2
        ⟨a, ha, (regActiveB_iff _ br h).2 ⟨hoc, hbr⟩⟩
      exact ⟨b, Or.inl (Or.inl (Or.inr hb)), hc⟩
    · obtain ⟨b, hb, hc⟩ := (part_covers _ _ br hooks.extrinsic h).2
        ⟨a, ha, (regActiveB_iff _ br h).2 ⟨hoc, hbr⟩⟩
      exact ⟨b, Or.inl (Or.inr hb), hc⟩
    · obtain ⟨b, hb, hc⟩ := (part_covers _ _ br hooks.evmLog h).2
        ⟨a, ha, (regActiveB_iff _ br h).2 ⟨hoc, hbr⟩⟩
      exact ⟨b, Or.inr hb, hc⟩

theorem singletonBatches_tokens {H : Type} (hooks : Hooks H) (br : Option Range)
    (h : Nat) :
    coveredTokens h (singletonBatches hooks br) = registrationTokens hooks br h := by
  unfold singletonBatches registrationTokens
  rw [coveredTokens_append, coveredTokens_append, coveredTokens_append,
    coveredTokens_append]
  rw [part_tokens _ _ br hooks.pre h _ (fun a => preTokens_singleton a.handler)]
  rw [part_tokens _ _ br hooks.post h _ (fun a => postTokens_singleton a.handler)]
  rw [part_tokens _ _ br hooks.event h _
    (fun a => eventTokens_singleton a.event a.handler)]
  rw [part_tokens _ _ br hooks.extrinsic h _
    (fun a => extrinsicTokens_singleton a.event a.extrinsic a.handler)]
  rw [part_tokens _ _ br hooks.evmLog h _
    (fun a => evmTokens_singleton a.contractAddress ⟨a.filter, a.handler⟩)]

/-- Spec-side (original claim C2): the event handlers for key `k`,
concatenated in original registration order over the registrations active
at height `h`. The code does not realise this order; see the C2
counterexample. -/
def regOrderEventHandlers {H : Type} (hooks : Hooks H) (br : Option Range)
    (h : Nat) (k : String) : List H :=
  (hooks.event.filter (fun a => regActiveB a.range br h && (a.event == k))).map
    (fun a => a.handler)

/-- Two event registrations on the same key with overlapping ranges, the
later one starting lower: the C2 counterexample input. -/
def cexHooks : Hooks Nat where
  pre := []
  post := []
  event := [⟨some ⟨5, some 10⟩, "E", 1⟩, ⟨some ⟨0, some 10⟩, "E", 2⟩]
  extrinsic := []
  evmLog := []

theorem cex_singles : singletonBatches cexHooks none =
    [Batch.mk ⟨5, some 10⟩ ⟨[], [], [("E", [1])], [], []⟩,
     Batch.mk ⟨0, some 10⟩ ⟨[], [], [("E", [2])], [], []⟩] := by
  rfl

theorem cex_eval : createBatches cexHooks none =
    [Batch.mk ⟨0, some 4⟩ ⟨[], [], [("E", [2])], [], []⟩,
     Batch.mk ⟨5, some 10⟩ ⟨[], [], [("E", [2, 1])], [], []⟩] := by
  unfold createBatches
  rw [cex_singles]
  unfold mergeBatches
  rw [if_neg (by decide)]
  rw [show heapInit [Batch.mk ⟨5, some 10⟩ ⟨[], [], [("E", [1])], [], []⟩,
      Batch.mk ⟨0, some 10⟩ ⟨[], [], [("E", [2])], [], []⟩]
    = [Batch.mk ⟨0, some 10⟩ ⟨[], [], [("E", [2])], [], []⟩,
       Batch.mk ⟨5, some 10⟩ ⟨[], [], [("E", [1])], [], []⟩] from rfl]
  show mergeLoop (Batch.mk ⟨0, some 10⟩ ⟨[], [], [("E", [2])], [], []⟩)
    [Batch.mk ⟨5, some 10⟩ ⟨[], [], [("E", [1])], [], []⟩] = _
  rw [mergeLoop_cons_some
    (Batch.mk ⟨0, some 10⟩ ⟨[], [], [("E", [2])], [], []⟩)
    (Batch.mk ⟨5, some 10⟩ ⟨[], [], [("E", [1])], [], []⟩)
    []
    [Batch.mk ⟨5, some 10⟩ ⟨[], [], [("E", [2, 1])], [], []⟩]
    (Batch.mk ⟨0, some 4⟩ ⟨[], [], [("E", [2])], [], []⟩)
    ⟨5, some 10⟩ rfl rfl]
  rw [mergeLoop_cons_none
    (Batch.mk ⟨0, some 4⟩ ⟨[], [], [("E", [2])], [], []⟩)
    (Batch.mk ⟨5, some 10⟩ ⟨[], [], [("E", [2, 1])], [], []⟩)
    [] rfl]
  rw [mergeLoop_nil]

theorem intersection_none_of_disjoint (a b : Range)
    (hdis : ∀ h, ¬(a.containsH h = true ∧ b.containsH h = true)) :
    rangeIntersection a b = none := by
  cases hi : rangeIntersection a b with
  | none => rfl
  | some i =>
      exfalso
      have hiwf := intersection_wf a b i hi
      have hic := containsH_inter a b i hi i.lo
      have hmem : i.containsH i.lo = true := by
        rw [containsH_iff]
        exact ⟨le_refl _, fun t ht => hiwf t ht⟩
      exact hdis i.lo (hic.1 hmem)

theorem mergeLoop_id {H : Type} (top : Batch H) (heap : List (Batch H))
    (hdis : (top :: heap).Pairwise
      (fun x y => rangeIntersection x.range y.range = none)) :
    mergeLoop top heap = top :: heap := by
  induction heap generalizing top with
  | nil => exact mergeLoop_nil top
  | cons b rest ih =>
      rw [List.pairwise_cons] at hdis
      rw [mergeLoop_cons_none top b rest (hdis.1 b (List.mem_cons_self _ _))]
      rw [ih b ((List.pairwise_cons.1 hdis.2).2.cons
        (fun y hy => (List.pairwise_cons.1 hdis.2).1 y hy))]

theorem heapPush_append {H : Type} (el : Batch H) (acc : List (Batch H))
    (hle : ∀ x ∈ acc, x.range.lo ≤ el.range.lo) :
    heapPush el acc = acc ++ [el] := by
  induction acc with
  | nil => rfl
  | cons x xs ih =>
      unfold heapPush
      rw [if_pos (hle x (List.mem_cons_self _ _))]
      rw [ih (fun y hy => hle y (List.mem_cons_of_mem _ hy))]
      rfl

theorem foldl_push_sorted {H : Type} (l : List (Batch H)) :
    ∀ acc : List (Batch H),
    l.Pairwise (fun x y => x.range.lo ≤ y.range.lo) →
    (∀ x ∈ acc, ∀ y ∈ l, x.range.lo ≤ y.range.lo) →
    l.foldl (fun hp b => heapPush b hp) acc = acc ++ l := by
  induction l with
  | nil =>
      intro acc _ _
      simp
  | cons b rest ih =>
      intro acc hsort hle
      rw [List.pairwise_cons] at hsort
      rw [List.foldl_cons]
      rw [heapPush_append b acc (fun x hx => hle x hx b (List.mem_cons_self _ _))]
      rw [ih (acc ++ [b]) hsort.2 ?_]
      · simp
      · intro x hx y hy
        rcases List.mem_append.1 hx with hx | hx
        · exact hle x hx y (List.mem_cons_of_mem _ hy)
        · rw [List.mem_singleton] at hx
          subst hx
          exact hsort.1 y hy

theorem heapInit_sorted_id {H : Type} (l : List (Batch H))
    (hsort : l.Pairwise (fun x y => x.range.lo ≤ y.range.lo)) :
    heapInit l = l := by
  unfold heapInit
  rw [foldl_push_sorted l [] hsort (by intro x hx; cases hx)]
  rfl

/-- Two-level lookup in a nested association list (the `extrinsics` slot). -/
def lookup2 {T : Type} (m : List (String × List (String × T))) (k1 k2 : String) :
    Option T :=
  (lookupA m k1).bind (fun inner => lookupA inner k2)

structure CallHandlerEntry (H : Type) where
  handler : H
  triggerForFailedCalls : Bool
deriving DecidableEq, Repr

/-- Modelled from the spec: the `DataHandlers` aggregate of the missing
`batch/handlers` module of `substrate-processor`, with exactly the slots
`HandlerRunner` (`handlerProcessor.ts`) reads: pre/post block handlers,
events, calls (entries keeping the per-registration failed-calls flag), EVM
logs, `Contracts.ContractEmitted`, and the two Gear message kinds. The
per-slot `data` selections do not influence dispatch and are not
modelled. -/
structure RDataHandlers (H : Type) where
  pre : List H
  post : List H
  events : List (String × List H)
  calls : List (String × List (CallHandlerEntry H))
  evmLogs : List (String × List (EvmLogHandlerEntry H))
  contractsContractEmitted : List (String × List H)
  gearMessageEnqueued : List (String × List H)
  gearUserMessageSent : List (String × List H)
deriving DecidableEq, Repr

structure SEvent where
  name : String
  evmAddress : Option String
  evmLogAddress : String
  topics : List String
  contract : String
  destination : String
  msgSource : String
deriving DecidableEq, Repr

structure SCall where
  name : String
  success : Bool
deriving DecidableEq, Repr

inductive Item where
  | event (e : SEvent)
  | call (c : SCall)
deriving DecidableEq, Repr

structure BlockHeader where
  height : Nat
  hash : String
deriving DecidableEq, Repr

structure BlockData where
  header : BlockHeader
  items : List Item
deriving DecidableEq, Repr

/-- The reported contract address of an EVM log event:
`event.args.address || event.args.log.address` (`handlerProcessor.ts`). -/
def evmContractAddress (e : SEvent) : String :=
  e.evmAddress.getD e.evmLogAddress

inductive Invocation (H : Type) where
  | pre (h : H)
  | post (h : H)
  | event (name : String) (h : H)
  | evmLog (address : String) (h : H)
  | contractEmitted (address : String) (h : H)
  | gearMessageEnqueued (programId : String) (h : H)
  | gearUserMessageSent (programId : String) (h : H)
  | call (name : String) (h : H)
deriving DecidableEq, Repr

/-- `HandlerRunner.getEventHandlers`: the wildcard entry's handlers, then
the exact-name entry's handlers. -/
def getEventHandlers {H : Type} (handlers : RDataHandlers H) (e : SEvent) :
    List H :=
  (match lookupA handlers.events "*" with
   | none => []
   | some hs => hs)
  ++ (match lookupA handlers.events e.name with
      | none => []
      | some hs => hs)

def getCallHandlers {H : Type} (handlers : RDataHandlers H) (c : SCall) :
    List (CallHandlerEntry H) :=
  (match lookupA handlers.calls "*" with
   | none => []
   | some hs => hs)
  ++ (match lookupA handlers.calls c.name with
      | none => []
      | some hs => hs)

/-- The loop of `HandlerRunner.evmHandlerMatches`: position by position over
the filter, a missing (`undefined`) entry matches anything, a list entry
must contain the log's topic at that position, a literal entry must equal
it; a position beyond the log's topics fails any present entry. -/
def topicsMatch : List (Option EvmTopicFilter) → List String → Bool
  | [], _ => true
  | none :: fs, ts => topicsMatch fs (ts.drop 1)
  | some (EvmTopicFilter.single _) :: _, [] => false
  | some (EvmTopicFilter.single t) :: fs, u :: ts => (t == u) && topicsMatch fs ts
  | some (EvmTopicFilter.oneOf _) :: _, [] => false
  | some (EvmTopicFilter.oneOf l) :: fs, u :: ts => l.contains u && topicsMatch fs ts

/-- `HandlerRunner.evmHandlerMatches`: no filter matches everything,
otherwise the per-position loop decides. -/
def evmHandlerMatches {H : Type} (entry : EvmLogHandlerEntry H)
    (topics : List String) : Bool :=
  match entry.filter with
  | none => true
  | some fs => topicsMatch fs topics

/-- `HandlerRunner.getEvmLogHandlers`: only for `EVM.Log` events, the
entries registered at the event's reported address (looked up verbatim)
whose filter matches the topics. -/
def getEvmLogHandlers {H : Type} (evmLogs : List (String × List (EvmLogHandlerEntry H)))
    (e : SEvent) : List H :=
  if e.name == "EVM.Log" then
    match lookupA evmLogs (evmContractAddress e) with
    | none => []
    | some entries =>
        (entries.filter (fun h => evmHandlerMatches h e.topics)).map
          (fun h => h.handler)
  else []

def getContractEmittedHandlers {H : Type} (handlers : RDataHandlers H)
    (e : SEvent) : List H :=
  if e.name == "Contracts.ContractEmitted" then
    match lookupA handlers.contractsContractEmitted e.contract with
    | none => []
    | some hs => hs
  else []

def getGearMessageEnqueuedHandlers {H : Type} (handlers : RDataHandlers H)
    (e : SEvent) : List H :=
  if e.name == "Gear.MessageEnqueued" then
    match lookupA handlers.gearMessageEnqueued e.destination with
    | none => []
    | some hs => hs
  else []

def getGearUserMessageSentHandlers {H : Type} (handlers : RDataHandlers H)
    (e : SEvent) : List H :=
  if e.name == "Gear.UserMessageSent" then
    match lookupA handlers.gearUserMessageSent e.msgSource with
    | none => []
    | some hs => hs
  else []

def eventItemTrace {H : Type} (handlers : RDataHandlers H) (e : SEvent) :
    List (Invocation H) :=
  ((getEventHandlers handlers e).map (Invocation.event e.name))
  ++ ((getEvmLogHandlers handlers.evmLogs e).map
        (Invocation.evmLog (evmContractAddress e)))
  ++ ((getContractEmittedHandlers handlers e).map
        (Invocation.contractEmitted e.contract))
  ++ ((getGearMessageEnqueuedHandlers handlers e).map
        (Invocation.gearMessageEnqueued e.destination))
  ++ ((getGearUserMessageSentHandlers handlers e).map
        (Invocation.gearUserMessageSent e.msgSource))

def callItemTrace {H : Type} (handlers : RDataHandlers H) (c : SCall) :
    List (Invocation H) :=
  ((getCallHandlers handlers c).filter
      (fun entry => c.success || entry.triggerForFailedCalls)).map
    (fun entry => Invocation.call c.name entry.handler)

/-- The `switch` over an item's kind in `HandlerRunner.processBlock`. -/
def itemTrace {H : Type} (handlers : RDataHandlers H) : Item → List (Invocation H)
  | Item.event e => eventItemTrace handlers e
  | Item.call c => callItemTrace handlers c

/-- `HandlerRunner.processBlock` as the list of handler invocations it
performs, in order: the pre loop, the item loop, the post loop. Handler
calls are opaque, so the trace is the block's observable dispatch
behaviour. -/
def processBlockTrace {H : Type} (handlers : RDataHandlers H) (block : BlockData) :
    List (Invocation H) :=
  (handlers.pre.map Invocation.pre)
  ++ (block.items.map (itemTrace handlers)).join
  ++ (handlers.post.map Invocation.post)

/-- A thrown error as the engine reports it: a message plus the optional
`{blockHeight, blockHash}` context added by `withErrorContext`. -/
structure RunError where
  message : String
  blockHeight : Option Nat
  blockHash : Option String
deriving DecidableEq, Repr

/-- Modelled from the spec: `withErrorContext` of the missing `util/misc`
module decorates a propagating error with the block's height and hash. -/
def withErrorContext (height : Nat) (hash : String) (e : String) : RunError :=
  { message := e, blockHeight := some height, blockHash := some hash }

/-- The undecorated failure of the `assert` at the top of the
`processBatch` loop. -/
def assertError : RunError :=
  { message := "assertion failed: this.lastBlock < block.header.height"
    blockHeight := none
    blockHash := none }

/-- Modelled from the spec: the persistent context of the missing `Runner`
base class and its database, threaded explicitly: the store, the log of
committed `(from, to)` transaction keys, and the `lastBlock` watermark. -/
structure EngineState (S : Type) where
  store : S
  commits : List (Nat × Nat)
  lastBlock : Int
deriving Repr

/-- Modelled from the spec: section 6, the `Database.transact` contract. On
success the body's store is kept and the commit keyed `(f, t)` is recorded;
on error nothing changes and the error propagates. -/
def transact {S : Type} (f t : Nat) (body : S → Except String S)
    (st : EngineState S) : Except String (EngineState S) :=
  match body st.store with
  | Except.error e => Except.error e
  | Except.ok s => Except.ok { st with store := s, commits := st.commits ++ [(f, t)] }

/-- `HandlerRunner.processBatch` (`handlerProcessor.ts`): per block, assert
the watermark, run the block's work (opaque `runBlock`, standing for
`processBlock`) inside `transact(height, height)`, decorate any error with
the block context, else advance `lastBlock` and continue. The result pairs
the final engine state with the error that stopped the loop, if any. -/
def processBatch {S H : Type}
    (runBlock : RDataHandlers H → S → BlockData → Except String S)
    (handlers : RDataHandlers H) (blocks : List BlockData)
    (st : EngineState S) : EngineState S × Option RunError :=
  match blocks with
  | [] => (st, none)
  | block :: rest =>
      if st.lastBlock < (block.header.height : Int) then
        match transact block.header.height block.header.height
            (fun s => runBlock handlers s block) st with
        | Except.error e =>
            (st, some (withErrorContext block.header.height block.header.hash e))
        | Except.ok st' =>
            processBatch runBlock handlers rest
              { st' with lastBlock := (block.header.height : Int) }
      else (st, some assertError)

/-- Spec-side (claim C4): the dispatch order of one event item as the spec
words it — generic event handlers (wildcard key before exact name) before
the specialized kinds, with each slot's list in registration order. -/
def specDispatchEventItem {H : Type} (handlers : RDataHandlers H) (e : SEvent) :
    List (Invocation H) :=
  ((((lookupA handlers.events "*").getD [])
      ++ ((lookupA handlers.events e.name).getD [])).map (Invocation.event e.name))
  ++ ((if e.name = "EVM.Log" then
        (((lookupA handlers.evmLogs (evmContractAddress e)).getD []).filter
            (fun entry => evmHandlerMatches entry e.topics)).map
          (fun entry => entry.handler)
      else []).map (Invocation.evmLog (evmContractAddress e)))
  ++ ((if e.name = "Contracts.ContractEmitted" then
        (lookupA handlers.contractsContractEmitted e.contract).getD []
      else []).map (Invocation.contractEmitted e.contract))
  ++ ((if e.name = "Gear.MessageEnqueued" then
        (lookupA handlers.gearMessageEnqueued e.destination).getD []
      else []).map (Invocation.gearMessageEnqueued e.destination))
  ++ ((if e.name = "Gear.UserMessageSent" then
        (lookupA handlers.gearUserMessageSent e.msgSource).getD []
      else []).map (Invocation.gearUserMessageSent e.msgSource))

/-- Spec-side (claim C4): the dispatch order of one call item — wildcard
then exact-name entries, filtered by success or the failed-calls flag. -/
def specDispatchCallItem {H : Type} (handlers : RDataHandlers H) (c : SCall) :
    List (Invocation H) :=
  (((((lookupA handlers.calls "*").getD [])
      ++ ((lookupA handlers.calls c.name).getD [])).filter
        (fun entry => c.success || entry.triggerForFailedCalls)).map
    (fun entry => Invocation.call c.name entry.handler))

/-- Spec-side (claim C4): the block's dispatch order as the spec words it —
every pre handler, the items in source order, every post handler. -/
def specDispatchOrder {H : Type} (handlers : RDataHandlers H) (block : BlockData) :
    List (Invocation H) :=
  (handlers.pre.map Invocation.pre)
  ++ (block.items.map (fun item =>
        match item with
        | Item.event e => specDispatchEventItem handlers e
        | Item.call c => specDispatchCallItem handlers c)).join
  ++ (handlers.post.map Invocation.post)

theorem getEventHandlers_eq {H : Type} (handlers : RDataHandlers H) (e : SEvent) :
    getEventHandlers handlers e
      = ((lookupA handlers.events "*").getD [])
        ++ ((lookupA handlers.events e.name).getD []) := by
  unfold getEventHandlers
  cases lookupA handlers.events "*" <;> cases lookupA handlers.events e.name <;> rfl

theorem getCallHandlers_eq {H : Type} (handlers : RDataHandlers H) (c : SCall) :
    getCallHandlers handlers c
      = ((lookupA handlers.calls "*").getD [])
        ++ ((lookupA handlers.calls c.name).getD []) := by
  unfold getCallHandlers
  cases lookupA handlers.calls "*" <;> cases lookupA handlers.calls c.name <;> rfl

theorem getEvmLogHandlers_eq {H : Type} (evmLogs : List (String × List (EvmLogHandlerEntry H)))
    (e : SEvent) :
    getEvmLogHandlers evmLogs e
      = if e.name = "EVM.Log" then
          (((lookupA evmLogs (evmContractAddress e)).getD []).filter
              (fun entry => evmHandlerMatches entry e.topics)).map
            (fun entry => entry.handler)
        else [] := by
  unfold getEvmLogHandlers
  by_cases hn : e.name = "EVM.Log"
  · have hb : (e.name == "EVM.Log") = true := by simp [hn]
    rw [if_pos hb, if_pos hn]
    cases lookupA evmLogs (evmContractAddress e) <;> rfl
  · have hb : (e.name == "EVM.Log") = false := by simp [hn]
    rw [if_neg (by simp [hb]), if_neg hn]

theorem getContractEmittedHandlers_eq {H : Type} (handlers : RDataHandlers H)
    (e : SEvent) :
    getContractEmittedHandlers handlers e
      = if e.name = "Contracts.ContractEmitted" then
          (lookupA handlers.contractsContractEmitted e.contract).getD []
        else [] := by
  unfold getContractEmittedHandlers
  by_cases hn : e.name = "Contracts.ContractEmitted"
  · have hb : (e.name == "Contracts.ContractEmitted") = true := by simp [hn]
    rw [if_pos hb, if_pos hn]
    cases lookupA handlers.contractsContractEmitted e.contract <;> rfl
  · have hb : (e.name == "Contracts.ContractEmitted") = false := by simp [hn]
    rw [if_neg (by simp [hb]), if_neg hn]

theorem getGearMessageEnqueuedHandlers_eq {H : Type} (handlers : RDataHandlers H)
    (e : SEvent) :
    getGearMessageEnqueuedHandlers handlers e
      = if e.name = "Gear.MessageEnqueued" then
          (lookupA handlers.gearMessageEnqueued e.destination).getD []
        else [] := by
  unfold getGearMessageEnqueuedHandlers
  by_cases hn : e.name = "Gear.MessageEnqueued"
  · have hb : (e.name == "Gear.MessageEnqueued") = true := by simp [hn]
    rw [if_pos hb, if_pos hn]
    cases lookupA handlers.gearMessageEnqueued e.destination <;> rfl
  · have hb : (e.name == "Gear.MessageEnqueued") = false := by simp [hn]
    rw [if_neg (by simp [hb]), if_neg hn]

theorem getGearUserMessageSentHandlers_eq {H : Type} (handlers : RDataHandlers H)
    (e : SEvent) :
    getGearUserMessageSentHandlers handlers e
      = if e.name = "Gear.UserMessageSent" then
          (lookupA handlers.gearUserMessageSent e.msgSource).getD []
        else [] := by
  unfold getGearUserMessageSentHandlers
  by_cases hn : e.name = "Gear.UserMessageSent"
  · have hb : (e.name == "Gear.UserMessageSent") = true := by simp [hn]
    rw [if_pos hb, if_pos hn]
    cases lookupA handlers.gearUserMessageSent e.msgSource <;> rfl
  · have hb : (e.name == "Gear.UserMessageSent") = false := by simp [hn]
    rw [if_neg (by simp [hb]), if_neg hn]

/-- Spec-side (claim C6): a present filter entry is satisfied by the topic
at its position — a literal must equal it, a set must contain it; an absent
topic satisfies neither. -/
def topicFilterSat (f : EvmTopicFilter) (u : Option String) : Prop :=
  match f with
  | EvmTopicFilter.single t => u = some t
  | EvmTopicFilter.oneOf l => ∃ v, u = some v ∧ v ∈ l

theorem topicsMatch_iff (fs : List (Option EvmTopicFilter)) (ts : List String) :
    topicsMatch fs ts = true
      ↔ ∀ (i : Nat) (f : EvmTopicFilter), fs.get? i = some (some f) →
          topicFilterSat f (ts.get? i) := by
  induction fs generalizing ts with
  | nil =>
      simp only [topicsMatch, List.get?_nil]
      constructor
      · intro _ i f hf
        cases hf
      · intro _
        trivial
  | cons fo fs ih =>
      cases fo with
      | none =>
          rw [show topicsMatch (none :: fs) ts = topicsMatch fs (ts.drop 1) from rfl]
          rw [ih (ts.drop 1)]
          constructor
          · intro hall i f hf
            cases i with
            | zero => cases hf
            | succ j =>
                have := hall j f hf
                rwa [List.get?_drop, show 1 + j = j + 1 from by omega] at this
          · intro hall i f hf
            have := hall (i + 1) f hf
            rwa [List.get?_drop, show 1 + i = i + 1 from by omega]
      | some f0 =>
          cases f0 with
          | single t =>
              cases ts with
              | nil =>
                  simp only [topicsMatch]
                  constructor
                  · intro h
                    cases h
                  · intro hall
                    have := hall 0 (EvmTopicFilter.single t) rfl
                    simp [topicFilterSat, List.get?_nil] at this
              | cons u ts' =>
                  rw [show topicsMatch (some (EvmTopicFilter.single t) :: fs) (u :: ts')
                    = ((t == u) && topicsMatch fs ts') from rfl]
                  rw [Bool.and_eq_true, ih ts']
                  constructor
                  · rintro ⟨hteq, hall⟩ i f hf
                    cases i with
                    | zero =>
                        cases hf
                        simp only [topicFilterSat, List.get?_cons_zero]
                        rw [beq_iff_eq] at hteq
                        rw [hteq]
                    | succ j => exact hall j f hf
                  · intro hall
                    constructor
                    · have := hall 0 (EvmTopicFilter.single t) rfl
                      simp only [topicFilterSat, List.get?_cons_zero,
                        Option.some_inj] at this
                      rw [beq_iff_eq]
                      exact this.symm
                    · intro j f hf
                      exact hall (j + 1) f hf
          | oneOf l =>
              cases ts with
              | nil =>
                  simp only [topicsMatch]
                  constructor
                  · intro h
                    cases h
                  · intro hall
                    have := hall 0 (EvmTopicFilter.oneOf l) rfl
                    simp [topicFilterSat, List.get?_nil] at this
              | cons u ts' =>
                  rw [show topicsMatch (some (EvmTopicFilter.oneOf l) :: fs) (u :: ts')
                    = (l.contains u && topicsMatch fs ts') from rfl]
                  rw [Bool.and_eq_true, ih ts']
                  constructor
                  · rintro ⟨hmem, hall⟩ i f hf
                    cases i with
                    | zero =>
                        cases hf
                        refine ⟨u, rfl, ?_⟩
                        exact List.elem_iff.1 hmem
                    | succ j => exact hall j f hf
                  · intro hall
                    constructor
                    · obtain ⟨v, hv, hvl⟩ := hall 0 (EvmTopicFilter.oneOf l) rfl
                      simp only [List.get?_cons_zero, Option.some_inj] at hv
                      subst hv
                      exact List.elem_iff.2 hvl
                    · intro j f hf
                      exact hall (j + 1) f hf

structure DataSource where
  archive : String
  chain : Option String
deriving DecidableEq, Repr

structure RBlockHook (H : Type) where
  handler : H
  range : Option Range
deriving DecidableEq, Repr

structure REventHook (H : Type) where
  event : String
  handler : H
  range : Option Range
deriving DecidableEq, Repr

structure RCallHook (H : Type) where
  call : String
  handler : H
  range : Option Range
  triggerForFailedCalls : Bool
deriving DecidableEq, Repr

structure REvmLogHook (H : Type) where
  handler : H
  contractAddress : String
  filter : Option (List (Option EvmTopicFilter))
  range : Option Range
deriving DecidableEq, Repr

structure RAddressHook (H : Type) where
  handler : H
  contractAddress : String
  range : Option Range
deriving DecidableEq, Repr

structure RProgramHook (H : Type) where
  handler : H
  programId : String
  range : Option Range
deriving DecidableEq, Repr

/-- Modelled from the spec: the `interfaces/hooks` aggregate of
`substrate-processor`, with the eight registration lists
`SubstrateProcessor` pushes into. -/
structure RHooks (H : Type) where
  pre : List (RBlockHook H)
  post : List (RBlockHook H)
  event : List (REventHook H)
  call : List (RCallHook H)
  evmLog : List (REvmLogHook H)
  contractsContractEmitted : List (RAddressHook H)
  gearMessageEnqueued : List (RProgramHook H)
  gearUserMessageSent : List (RProgramHook H)
deriving DecidableEq, Repr

/-- The configuration state of `SubstrateProcessor`
(`handlerProcessor.ts`): registrations, block range (default `{from: 0}`),
batch size (default 100), optional prometheus port, data source and types
bundle, and the `running` flag. Methods become `Except`-valued functions:
an `Except.error` is a synchronous throw, leaving the input value — hence
the configuration — untouched. -/
structure SubstrateProcessor (H : Type) where
  hooks : RHooks H
  blockRange : Range
  batchSize : Nat
  prometheusPort : Option Nat
  src : Option DataSource
  typesBundle : Option String
  running : Bool
deriving DecidableEq, Repr

/-- The message of `SubstrateProcessor.assertNotRunning`. -/
def configErrMsg : String :=
  "Settings modifications are not allowed after start of processing"

/-- `SubstrateProcessor.assertNotRunning`: reject any configuration change
once `running` is set. -/
def assertNotRunning {H : Type} (p : SubstrateProcessor H) : Except String Unit :=
  if p.running then Except.error configErrMsg else Except.ok ()

def setDataSource {H : Type} (p : SubstrateProcessor H) (src : DataSource) :
    Except String (SubstrateProcessor H) :=
  match assertNotRunning p with
  | Except.error e => Except.error e
  | Except.ok _ => Except.ok { p with src := some src }

def setTypesBundle {H : Type} (p : SubstrateProcessor H) (bundle : String) :
    Except String (SubstrateProcessor H) :=
  match assertNotRunning p with
  | Except.error e => Except.error e
  | Except.ok _ => Except.ok { p with typesBundle := some bundle }

def setBlockRange {H : Type} (p : SubstrateProcessor H) (range : Range) :
    Except String (SubstrateProcessor H) :=
  match assertNotRunning p with
  | Except.error e => Except.error e
  | Except.ok _ => Except.ok { p with blockRange := range }

def setBatchSize {H : Type} (p : SubstrateProcessor H) (size : Nat) :
    Except String (SubstrateProcessor H) :=
  match assertNotRunning p with
  | Except.error e => Except.error e
  | Except.ok _ =>
      if size > 0 then Except.ok { p with batchSize := size }
      else Except.error "assertion failed: size > 0"

def setPrometheusPort {H : Type} (p : SubstrateProcessor H) (port : Nat) :
    Except String (SubstrateProcessor H) :=
  match assertNotRunning p with
  | Except.error e => Except.error e
  | Except.ok _ => Except.ok { p with prometheusPort := some port }

def addPreHook {H : Type} (p : SubstrateProcessor H) (range : Option Range)
    (fn : H) : Except String (SubstrateProcessor H) :=
  match assertNotRunning p with
  | Except.error e => Except.error e
  | Except.ok _ => Except.ok
      { p with hooks := { p.hooks with
          pre := p.hooks.pre ++ [{ handler := fn, range := range }] } }

def addPostHook {H : Type} (p : SubstrateProcessor H) (range : Option Range)
    (fn : H) : Except String (SubstrateProcessor H) :=
  match assertNotRunning p with
  | Except.error e => Except.error e
  | Except.ok _ => Except.ok
      { p with hooks := { p.hooks with
          post := p.hooks.post ++ [{ handler := fn, range := range }] } }

def addEventHandler {H : Type} (p : SubstrateProcessor H) (eventName : String)
    (range : Option Range) (fn : H) : Except String (SubstrateProcessor H) :=
  match assertNotRunning p with
  | Except.error e => Except.error e
  | Except.ok _ => Except.ok
      { p with hooks := { p.hooks with
          event := p.hooks.event
            ++ [{ event := eventName, handler := fn, range := range }] } }

def addCallHandler {H : Type} (p : SubstrateProcessor H) (callName : String)
    (range : Option Range) (triggerForFailedCalls : Bool) (fn : H) :
    Except String (SubstrateProcessor H) :=
  match assertNotRunning p with
  | Except.error e => Except.error e
  | Except.ok _ => Except.ok
      { p with hooks := { p.hooks with
          call := p.hooks.call
            ++ [{ call := callName, handler := fn, range := range
                  triggerForFailedCalls := triggerForFailedCalls }] } }

def addEvmLogHandler {H : Type} (p : SubstrateProcessor H)
    (contractAddress : String) (range : Option Range)
    (filter : Option (List (Option EvmTopicFilter))) (fn : H) :
    Except String (SubstrateProcessor H) :=
  match assertNotRunning p with
  | Except.error e => Except.error e
  | Except.ok _ => Except.ok
      { p with hooks := { p.hooks with
          evmLog := p.hooks.evmLog
            ++ [{ handler := fn, contractAddress := contractAddress.toLower
                  filter := filter, range := range }] } }

def addContractsContractEmittedHandler {H : Type} (p : SubstrateProcessor H)
    (contractAddress : String) (range : Option Range) (fn : H) :
    Except String (SubstrateProcessor H) :=
  match assertNotRunning p with
  | Except.error e => Except.error e
  | Except.ok _ => Except.ok
      { p with hooks := { p.hooks with
          contractsContractEmitted := p.hooks.contractsContractEmitted
            ++ [{ handler := fn, contractAddress := contractAddress.toLower
                  range := range }] } }

def addGearMessageEnqueuedHandler {H : Type} (p : SubstrateProcessor H)
    (programId : String) (range : Option Range) (fn : H) :
    Except String (SubstrateProcessor H) :=
  match assertNotRunning p with
  | Except.error e => Except.error e
  | Except.ok _ => Except.ok
      { p with hooks := { p.hooks with
          gearMessageEnqueued := p.hooks.gearMessageEnqueued
            ++ [{ handler := fn, programId := programId, range := range }] } }

def addGearUserMessageSentHandler {H : Type} (p : SubstrateProcessor H)
    (programId : String) (range : Option Range) (fn : H) :
    Except String (SubstrateProcessor H) :=
  match assertNotRunning p with
  | Except.error e => Except.error e
  | Except.ok _ => Except.ok
      { p with hooks := { p.hooks with
          gearUserMessageSent := p.hooks.gearUserMessageSent
            ++ [{ handler := fn, programId := programId, range := range }] } }

/-- A processor whose run has started: the C9 witness input. -/
def runningProcCex : SubstrateProcessor Nat :=
  { hooks := { pre := [], post := [], event := [], call := [], evmLog := []
               contractsContractEmitted := [], gearMessageEnqueued := []
               gearUserMessageSent := [] }
    blockRange := ⟨0, none⟩
    batchSize := 100
    prometheusPort := none
    src := none
    typesBundle := none
    running := true }

/-- Two registrations with overlapping well-formed ranges: the C1 witness
input. -/
def c1WitnessHooks : Hooks Nat where
  pre := [⟨some ⟨3, some 9⟩, 1⟩]
  post := []
  event := [⟨some ⟨0, some 5⟩, "E", 2⟩]
  extrinsic := []
  evmLog := []

/-
The claims. Each claim of the specification is settled by one theorem
below; witnesses instantiate the theorems with hypotheses at concrete
inputs, and the refuted ordering claim of C2 has a concrete
counterexample.
-/

/-- C1: for every finite set of handler registrations (each range defaulting
to `{from: 0}`, unbounded above) and an optional global run range, the batch
list produced by the scheduler (`createBatches`, i.e. singleton batches
followed by `mergeBatches`) is sorted by ascending `from`, pairwise
non-overlapping, and covers a height `h` exactly when some registration's
range contains `h` and `h` lies in the global run range; registrations whose
clipped range is empty contribute nothing (they produce no singleton batch,
and the coverage equivalence accounts for every height). -/
theorem createBatches_c1 {H : Type} (hooks : Hooks H) (br : Option Range)
    (hwf : ∀ or ∈ hookRanges hooks, Range.WF (or.getD ⟨0, none⟩)) :
    ((createBatches hooks br).Pairwise (fun x y => x.range.lo ≤ y.range.lo))
    ∧ ((createBatches hooks br).Pairwise
        (fun x y => ∀ h : Nat,
          ¬(x.range.containsH h = true ∧ y.range.containsH h = true)))
    ∧ (∀ h : Nat, (∃ b ∈ createBatches hooks br, b.range.containsH h = true)
        ↔ ((∃ or ∈ hookRanges hooks, (or.getD ⟨0, none⟩).containsH h = true)
            ∧ ∀ r, br = some r → r.containsH h = true)) := by
  unfold createBatches
  obtain ⟨hpw, hwfout⟩ := mergeBatches_sorted _ (singletonBatches_wf hooks br hwf)
  refine ⟨?_, ?_, ?_⟩
  · apply List.Pairwise.imp_of_mem ?_ hpw
    intro x y hx hy hr
    obtain ⟨t, hht, hlt⟩ := hr
    have hwx := hwfout x hx
    have := hwx t hht
    omega
  · apply List.Pairwise.imp ?_ hpw
    intro x y hr h
    exact rBefore_disjoint x y hr h
  · intro h
    rw [mergeBatches_covers]
    exact singletonBatches_covers hooks br h

/-- Witness for C1 at a concrete pair of registrations with well-formed
ranges. -/
theorem createBatches_c1_witness :
    (∀ or ∈ hookRanges c1WitnessHooks, Range.WF (or.getD ⟨0, none⟩))
    ∧ (((createBatches c1WitnessHooks none).Pairwise
          (fun x y => x.range.lo ≤ y.range.lo))
      ∧ ((createBatches c1WitnessHooks none).Pairwise
          (fun x y => ∀ h : Nat,
            ¬(x.range.containsH h = true ∧ y.range.containsH h = true)))
      ∧ (∀ h : Nat, (∃ b ∈ createBatches c1WitnessHooks none,
            b.range.containsH h = true)
          ↔ ((∃ or ∈ hookRanges c1WitnessHooks,
                (or.getD ⟨0, none⟩).containsH h = true)
              ∧ ∀ r, (none : Option Range) = some r → r.containsH h = true))) := by
  have hwf : ∀ or ∈ hookRanges c1WitnessHooks, Range.WF (or.getD ⟨0, none⟩) := by
    intro or hor
    simp only [hookRanges, c1WitnessHooks, List.map, List.append_nil,
      List.nil_append, List.mem_append, List.mem_cons, List.not_mem_nil,
      or_false] at hor
    rcases hor with rfl | rfl
    · intro t ht
      cases ht
      decide
    · intro t ht
      cases ht
      decide
  exact ⟨hwf, createBatches_c1 c1WitnessHooks none hwf⟩

/-- C2 (amended): for every set of registrations with well-formed ranges and
every height `h`, any scheduled batch whose range contains `h` is unique, and
its handler multiset (handlers tagged with their slot and key) equals the
multiset of exactly those registrations whose clipped range contains `h`. The
original claim additionally demanded the concatenation to be in original
registration order slot by slot; that ordering claim is refuted by
`createBatches_c2_original_refuted` below, because the merge visits batches
in ascending range-`from` order taken from the heap, not in registration
order. -/
theorem createBatches_c2 {H : Type} (hooks : Hooks H) (br : Option Range)
    (hwf : ∀ or ∈ hookRanges hooks, Range.WF (or.getD ⟨0, none⟩))
    (h : Nat) (b : Batch H) (hb : b ∈ createBatches hooks br)
    (hcov : b.range.containsH h = true) :
    b.handlers.tokens = registrationTokens hooks br h
    ∧ ∀ b' ∈ createBatches hooks br, b'.range.containsH h = true → b' = b := by
  unfold createBatches at hb ⊢
  obtain ⟨hpw, hwfout⟩ := mergeBatches_sorted _ (singletonBatches_wf hooks br hwf)
  have hdis : (mergeBatches (singletonBatches hooks br)).Pairwise
      (fun x y => ¬(x.range.containsH h = true ∧ y.range.containsH h = true)) :=
    List.Pairwise.imp (fun hr => rBefore_disjoint _ _ hr h) hpw
  constructor
  · have h1 := coveredTokens_unique h _ b hb hcov hdis
    rw [← singletonBatches_tokens hooks br h,
      ← mergeBatches_tokens _ (singletonBatches_WFkeys hooks br) h, h1]
  · intro b' hb' hcov'
    by_contra hne
    have hsym : Symmetric (fun x y : Batch H =>
        ¬(x.range.containsH h = true ∧ y.range.containsH h = true)) := by
      intro x y hxy ⟨hy, hx⟩
      exact hxy ⟨hx, hy⟩
    exact hdis.forall hsym hb' hb hne ⟨hcov', hcov⟩

/-- C2 (original, refuted): it is not the case that the batch covering a
height carries, key by key, the handler list in original registration order.
With two event hooks on key `E` — handler `1` registered first with range
`[5, 10]`, handler `2` second with range `[0, 10]` — the scheduled batch
covering height `7` holds `[2, 1]` at key `E`, while registration order gives
`[1, 2]`. -/
theorem createBatches_c2_original_refuted :
    ¬ (∀ (hooks : Hooks Nat) (br : Option Range) (h : Nat) (b : Batch Nat),
        b ∈ createBatches hooks br → b.range.containsH h = true →
        ∀ k, (lookupA b.handlers.events k).getD []
          = regOrderEventHandlers hooks br h k) := by
  intro hclaim
  have hb : (Batch.mk ⟨5, some 10⟩ ⟨[], [], [("E", [2, 1])], [], []⟩ : Batch Nat)
      ∈ createBatches cexHooks none := by
    rw [cex_eval]
    exact List.mem_cons_of_mem _ (List.mem_cons_self _ _)
  have hfalse := hclaim cexHooks none 7 _ hb (by decide) "E"
  revert hfalse
  decide

/-- Witness for the amended C2 at the concrete two-hook registration set. -/
theorem createBatches_c2_witness :
    (∀ or ∈ hookRanges cexHooks, Range.WF (or.getD ⟨0, none⟩))
    ∧ ((Batch.mk ⟨5, some 10⟩ ⟨[], [], [("E", [2, 1])], [], []⟩ : Batch Nat)
        ∈ createBatches cexHooks none)
    ∧ (Range.containsH ⟨5, some 10⟩ 7 = true)
    ∧ ((DataHandlers.mk [] [] [("E", [2, 1])] [] [] : DataHandlers Nat).tokens
          = registrationTokens cexHooks none 7
        ∧ ∀ b' ∈ createBatches cexHooks none,
            b'.range.containsH 7 = true
            → b' = Batch.mk ⟨5, some 10⟩ ⟨[], [], [("E", [2, 1])], [], []⟩) := by
  have hwf : ∀ or ∈ hookRanges cexHooks, Range.WF (or.getD ⟨0, none⟩) := by
    intro or hor
    simp only [hookRanges, cexHooks, List.map, List.append_nil, List.nil_append,
      List.mem_cons, List.not_mem_nil, or_false] at hor
    rcases hor with rfl | rfl
    · intro t ht
      cases ht
      decide
    · intro t ht
      cases ht
      decide
  have hb : (Batch.mk ⟨5, some 10⟩ ⟨[], [], [("E", [2, 1])], [], []⟩ : Batch Nat)
      ∈ createBatches cexHooks none := by
    rw [cex_eval]
    exact List.mem_cons_of_mem _ (List.mem_cons_self _ _)
  exact ⟨hwf, hb, by decide,
    createBatches_c2 cexHooks none hwf 7 _ hb (by decide)⟩

/-- C3: for every block in a batch, `processBatch` first asserts
`lastBlock < block.header.height` (failing that, it stops with an undecorated
assertion error and touches nothing); it then runs the block's work inside a
store transaction keyed `(height, height)`. When the block's work fails, no
commit is appended, the store and the `lastBlock` watermark keep their
previous values (earlier commits untouched), and the error is decorated with
the block's height and hash; when it succeeds, the commit keyed
`(height, height)` is appended and `lastBlock` becomes the block's height
before the rest of the batch is processed. -/
theorem processBatch_c3 {S H : Type}
    (runBlock : RDataHandlers H → S → BlockData → Except String S)
    (handlers : RDataHandlers H) (block : BlockData) (rest : List BlockData)
    (st : EngineState S) :
    (¬ st.lastBlock < (block.header.height : Int) →
      processBatch runBlock handlers (block :: rest) st = (st, some assertError))
    ∧ (∀ e, st.lastBlock < (block.header.height : Int) →
        runBlock handlers st.store block = Except.error e →
        processBatch runBlock handlers (block :: rest) st
          = (st, some { message := e
                        blockHeight := some block.header.height
                        blockHash := some block.header.hash }))
    ∧ (∀ s, st.lastBlock < (block.header.height : Int) →
        runBlock handlers st.store block = Except.ok s →
        processBatch runBlock handlers (block :: rest) st
          = processBatch runBlock handlers rest
              { store := s
                commits := st.commits ++ [(block.header.height, block.header.height)]
                lastBlock := (block.header.height : Int) }) := by
  refine ⟨?_, ?_, ?_⟩
  · intro hlt
    simp only [processBatch]
    rw [if_neg hlt]
  · intro e hlt herr
    simp only [processBatch, transact, herr, withErrorContext]
    rw [if_pos hlt]
  · intro s hlt hok
    simp only [processBatch, transact, hok]
    rw [if_pos hlt]

/-- C4: the dispatch order of a block equals the specified order: all `pre`
handlers in registration order (each invoked once for the whole block), then
the block's items in source order — for an event item the generic event
handlers (wildcard key `*` before the exact name, each slot in registration
order) before the specialized kinds (EVM log, contract-emitted, Gear
message-enqueued, Gear user-message-sent), for a call item the wildcard then
exact-name call handlers in registration order subject to the failed-call
filter — and finally all `post` handlers in registration order. -/
theorem processBlock_c4 {H : Type} (handlers : RDataHandlers H) (block : BlockData) :
    processBlockTrace handlers block = specDispatchOrder handlers block := by
  unfold processBlockTrace specDispatchOrder
  congr 1
  congr 1
  congr 1
  apply List.map_congr_left
  intro item _
  cases item with
  | event e =>
      show eventItemTrace handlers e = specDispatchEventItem handlers e
      unfold eventItemTrace specDispatchEventItem
      rw [getEventHandlers_eq, getEvmLogHandlers_eq,
        getContractEmittedHandlers_eq, getGearMessageEnqueuedHandlers_eq,
        getGearUserMessageSentHandlers_eq]
  | call c =>
      show callItemTrace handlers c = specDispatchCallItem handlers c
      unfold callItemTrace specDispatchCallItem
      rw [getCallHandlers_eq]

/-- C5: for a call item, a matching registered call handler entry is invoked
if the call succeeded or that entry carries the trigger-for-failed-calls
flag; on a failed call the trace consists of exactly the flagged entries (so
an unflagged handler is never invoked), and on a successful call of all
matching entries. -/
theorem processBlock_c5 {H : Type} (handlers : RDataHandlers H) (c : SCall) :
    (∀ entry ∈ getCallHandlers handlers c,
      (c.success = true ∨ entry.triggerForFailedCalls = true) →
        Invocation.call c.name entry.handler ∈ callItemTrace handlers c)
    ∧ (c.success = false →
        callItemTrace handlers c
          = ((getCallHandlers handlers c).filter
              (fun entry => entry.triggerForFailedCalls)).map
            (fun entry => Invocation.call c.name entry.handler))
    ∧ (c.success = true →
        callItemTrace handlers c
          = (getCallHandlers handlers c).map
            (fun entry => Invocation.call c.name entry.handler)) := by
  refine ⟨?_, ?_, ?_⟩
  · intro entry hmem hcond
    unfold callItemTrace
    apply List.mem_map_of_mem
    rw [List.mem_filter]
    refine ⟨hmem, ?_⟩
    rcases hcond with hc | hc <;> simp [hc]
  · intro hf
    unfold callItemTrace
    congr 1
    apply List.filter_congr
    intro entry _
    rw [hf]
    simp
  · intro ht
    unfold callItemTrace
    rw [show (fun entry : CallHandlerEntry H =>
        c.success || entry.triggerForFailedCalls) = fun entry => true from by
      funext entry
      rw [ht]
      simp]
    rw [List.filter_true]

/-- C6: an EVM-log handler entry with no topic filter always matches; with a
filter it matches iff every non-`undefined` filter position is satisfied by
the log's topic at that position (a literal must equal it, a list must
contain it, `undefined` positions match anything — including absent topics);
and a handler is yielded for an event iff the event is `EVM.Log`, the
registered contract address equals the event's reported address, and the
entry's filter matches the event's topics. -/
theorem evm_c6 {H : Type} (entry : EvmLogHandlerEntry H) (topics : List String)
    (evmLogs : List (String × List (EvmLogHandlerEntry H))) (e : SEvent) (h : H) :
    (entry.filter = none → evmHandlerMatches entry topics = true)
    ∧ (∀ fs, entry.filter = some fs →
        (evmHandlerMatches entry topics = true
          ↔ ∀ (i : Nat) (f : EvmTopicFilter), fs.get? i = some (some f) →
              topicFilterSat f (topics.get? i)))
    ∧ (h ∈ getEvmLogHandlers evmLogs e
        ↔ (e.name = "EVM.Log"
            ∧ ∃ entries, lookupA evmLogs (evmContractAddress e) = some entries
                ∧ ∃ en ∈ entries, en.handler = h
                    ∧ evmHandlerMatches en e.topics = true)) := by
  refine ⟨?_, ?_, ?_⟩
  · intro hnone
    unfold evmHandlerMatches
    rw [hnone]
  · intro fs hsome
    unfold evmHandlerMatches
    rw [hsome]
    exact topicsMatch_iff fs topics
  · rw [getEvmLogHandlers_eq]
    by_cases hn : e.name = "EVM.Log"
    · rw [if_pos hn]
      cases hl : lookupA evmLogs (evmContractAddress e) with
      | none =>
          simp only [Option.getD_none, List.filter_nil, List.map_nil,
            List.not_mem_nil, false_iff]
          rintro ⟨_, entries, hent, _⟩
          cases hent
      | some entries =>
          simp only [Option.getD_some, List.mem_map, List.mem_filter]
          constructor
          · rintro ⟨en, ⟨hmem, hmatch⟩, hh⟩
            exact ⟨hn, entries, rfl, en, hmem, hh, hmatch⟩
          · rintro ⟨_, entries', hent, en, hmem, hh, hmatch⟩
            injection hent with hent
            subst hent
            exact ⟨en, ⟨hmem, hmatch⟩, hh⟩
    · rw [if_neg hn]
      simp only [List.not_mem_nil, false_iff]
      rintro ⟨hn2, _⟩
      exact hn hn2

/-- C7: `mergeDataHandlers a b` concatenates the unkeyed slots (`pre`,
`post`) with `a`'s entries first, and merges every keyed slot key-wise: a key
present on one side keeps that side's value, a key present on both gets
`a`'s handler list concatenated before `b`'s (for the nested `extrinsics`
slot, at the inner key level). The merge builds a fresh aggregate; the
embedding is pure, so the inputs are unchanged by construction. -/
theorem mergeDataHandlers_c7 {H : Type} (a b : DataHandlers H) :
    (mergeDataHandlers a b).pre = a.pre ++ b.pre
    ∧ (mergeDataHandlers a b).post = a.post ++ b.post
    ∧ (∀ k, lookupA (mergeDataHandlers a b).events k
        = match lookupA a.events k, lookupA b.events k with
          | none, none => none
          | some v, none => some v
          | none, some w => some w
          | some v, some w => some (v ++ w))
    ∧ (∀ k1 k2, lookup2 (mergeDataHandlers a b).extrinsics k1 k2
        = match lookup2 a.extrinsics k1 k2, lookup2 b.extrinsics k1 k2 with
          | none, none => none
          | some v, none => some v
          | none, some w => some w
          | some v, some w => some (v ++ w))
    ∧ (∀ k, lookupA (mergeDataHandlers a b).evmLogs k
        = match lookupA a.evmLogs k, lookupA b.evmLogs k with
          | none, none => none
          | some v, none => some v
          | none, some w => some w
          | some v, some w => some (v ++ w)) := by
  refine ⟨rfl, rfl, ?_, ?_, ?_⟩
  · intro k
    show lookupA (mergeMaps a.events b.events (fun ha hb => ha ++ hb)) k = _
    rw [lookup_mergeMaps a.events b.events (fun ha hb => ha ++ hb) k]
    cases lookupA a.events k <;> cases lookupA b.events k <;> rfl
  · intro k1 k2
    unfold lookup2
    show (lookupA (mergeMaps a.extrinsics b.extrinsics
      (fun ea eb => mergeMaps ea eb (fun ha hb => ha ++ hb))) k1).bind
        (fun inner => lookupA inner k2) = _
    rw [lookup_mergeMaps a.extrinsics b.extrinsics
      (fun ea eb => mergeMaps ea eb (fun ha hb => ha ++ hb)) k1]
    cases h1 : lookupA a.extrinsics k1 with
    | none =>
        cases h2 : lookupA b.extrinsics k1 with
        | none => rfl
        | some w =>
            cases h3 : lookupA w k2 <;> simp [Option.bind, h3]
    | some v =>
        cases h2 : lookupA b.extrinsics k1 with
        | none =>
            cases h3 : lookupA v k2 <;> simp [Option.bind, h3]
        | some w =>
            show lookupA (mergeMaps v w (fun ha hb => ha ++ hb)) k2 = _
            rw [lookup_mergeMaps v w (fun ha hb => ha ++ hb) k2]
            cases h3 : lookupA v k2 <;> cases h4 : lookupA w k2 <;>
              simp [Option.bind, h3, h4]
  · intro k
    show lookupA (mergeMaps a.evmLogs b.evmLogs (fun ha hb => ha ++ hb)) k = _
    rw [lookup_mergeMaps a.evmLogs b.evmLogs (fun ha hb => ha ++ hb) k]
    cases lookupA a.evmLogs k <;> cases lookupA b.evmLogs k <;> rfl

/-- C8: `mergeBatches` is the identity on normalized inputs — a batch list
already sorted by `from` and pairwise non-overlapping is returned unchanged
(ranges and handlers both) — and any input of length at most one is returned
as-is. -/
theorem mergeBatches_c8 {H : Type} (l : List (Batch H))
    (hsort : l.Pairwise (fun x y => x.range.lo ≤ y.range.lo))
    (hdis : l.Pairwise (fun x y => ∀ h : Nat,
      ¬(x.range.containsH h = true ∧ y.range.containsH h = true))) :
    mergeBatches l = l
    ∧ (∀ l' : List (Batch H), l'.length ≤ 1 → mergeBatches l' = l') := by
  constructor
  · unfold mergeBatches
    split
    · rfl
    · have hid := heapInit_sorted_id l hsort
      split
      · rename_i hinit
        rw [hid] at hinit
        subst hinit
        rfl
      · rename_i top heap hinit
        rw [hid] at hinit
        subst hinit
        exact mergeLoop_id top heap
          (hdis.imp (fun hr => intersection_none_of_disjoint _ _ hr))
  · intro l' hlen
    unfold mergeBatches
    rw [if_pos hlen]

/-- Witness for C8 at a concrete sorted, disjoint two-batch list. -/
theorem mergeBatches_c8_witness :
    (([(Batch.mk ⟨0, some 1⟩ ⟨[], [], [], [], []⟩ : Batch Nat),
       Batch.mk ⟨2, none⟩ ⟨[], [], [], [], []⟩] : List (Batch Nat)).Pairwise
      (fun x y => x.range.lo ≤ y.range.lo))
    ∧ (([(Batch.mk ⟨0, some 1⟩ ⟨[], [], [], [], []⟩ : Batch Nat),
         Batch.mk ⟨2, none⟩ ⟨[], [], [], [], []⟩] : List (Batch Nat)).Pairwise
        (fun x y => ∀ h : Nat,
          ¬(x.range.containsH h = true ∧ y.range.containsH h = true)))
    ∧ (mergeBatches [(Batch.mk ⟨0, some 1⟩ ⟨[], [], [], [], []⟩ : Batch Nat),
          Batch.mk ⟨2, none⟩ ⟨[], [], [], [], []⟩]
        = [(Batch.mk ⟨0, some 1⟩ ⟨[], [], [], [], []⟩ : Batch Nat),
           Batch.mk ⟨2, none⟩ ⟨[], [], [], [], []⟩]
      ∧ ∀ l' : List (Batch Nat), l'.length ≤ 1 → mergeBatches l' = l') := by
  have hdis : (([(Batch.mk ⟨0, some 1⟩ ⟨[], [], [], [], []⟩ : Batch Nat),
       Batch.mk ⟨2, none⟩ ⟨[], [], [], [], []⟩] : List (Batch Nat)).Pairwise
      (fun x y => ∀ h : Nat,
        ¬(x.range.containsH h = true ∧ y.range.containsH h = true))) := by
    refine List.Pairwise.cons ?_ (List.pairwise_singleton _ _)
    intro y hy
    rw [List.mem_singleton] at hy
    subst hy
    intro h hc
    rcases hc with ⟨h1, h2⟩
    rw [containsH_iff] at h1 h2
    have ha := h1.2 1 rfl
    have hb := h2.1
    simp only at ha hb
    omega
  exact ⟨by decide, hdis, mergeBatches_c8 _ (by decide) hdis⟩

/-- C9: once `running` is set, every configuration operation of
`SubstrateProcessor` — data source, types bundle, block range, batch size,
prometheus port, and all eight handler-registration methods — fails
synchronously with the configuration error; in the `Except`-valued embedding
an error result returns no updated processor, so the configuration is
unchanged, and nothing is retried or deferred. -/
theorem processor_c9 {H : Type} (p : SubstrateProcessor H)
    (hrun : p.running = true) :
    (∀ src, setDataSource p src = Except.error configErrMsg)
    ∧ (∀ bundle, setTypesBundle p bundle = Except.error configErrMsg)
    ∧ (∀ range, setBlockRange p range = Except.error configErrMsg)
    ∧ (∀ size, setBatchSize p size = Except.error configErrMsg)
    ∧ (∀ port, setPrometheusPort p port = Except.error configErrMsg)
    ∧ (∀ range fn, addPreHook p range fn = Except.error configErrMsg)
    ∧ (∀ range fn, addPostHook p range fn = Except.error configErrMsg)
    ∧ (∀ name range fn, addEventHandler p name range fn
        = Except.error configErrMsg)
    ∧ (∀ name range flag fn, addCallHandler p name range flag fn
        = Except.error configErrMsg)
    ∧ (∀ addr range filter fn, addEvmLogHandler p addr range filter fn
        = Except.error configErrMsg)
    ∧ (∀ addr range fn, addContractsContractEmittedHandler p addr range fn
        = Except.error configErrMsg)
    ∧ (∀ pid range fn, addGearMessageEnqueuedHandler p pid range fn
        = Except.error configErrMsg)
    ∧ (∀ pid range fn, addGearUserMessageSentHandler p pid range fn
        = Except.error configErrMsg) := by
  have hassert : assertNotRunning p = Except.error configErrMsg := by
    unfold assertNotRunning
    rw [if_pos hrun]
  refine ⟨?_, ?_, ?_, ?_, ?_, ?_, ?_, ?_, ?_, ?_, ?_, ?_, ?_⟩
  · intro src
    simp only [setDataSource, hassert]
  · intro bundle
    simp only [setTypesBundle, hassert]
  · intro range
    simp only [setBlockRange, hassert]
  · intro size
    simp only [setBatchSize, hassert]
  · intro port
    simp only [setPrometheusPort, hassert]
  · intro range fn
    simp only [addPreHook, hassert]
  · intro range fn
    simp only [addPostHook, hassert]
  · intro name range fn
    simp only [addEventHandler, hassert]
  · intro name range flag fn
    simp only [addCallHandler, hassert]
  · intro addr range filter fn
    simp only [addEvmLogHandler, hassert]
  · intro addr range fn
    simp only [addContractsContractEmittedHandler, hassert]
  · intro pid range fn
    simp only [addGearMessageEnqueuedHandler, hassert]
  · intro pid range fn
    simp only [addGearUserMessageSentHandler, hassert]

/-- Witness for C9 on a concrete running processor. -/
theorem processor_c9_witness :
    runningProcCex.running = true
    ∧ setDataSource runningProcCex ⟨"http://archive", none⟩
        = Except.error configErrMsg
    ∧ setBlockRange runningProcCex ⟨0, some 10⟩ = Except.error configErrMsg
    ∧ setBatchSize runningProcCex 5 = Except.error configErrMsg
    ∧ addPreHook runningProcCex none 1 = Except.error configErrMsg
    ∧ addEventHandler runningProcCex "Balances.Transfer" none 2
        = Except.error configErrMsg
    ∧ addCallHandler runningProcCex "Balances.transfer" none false 3
        = Except.error configErrMsg
    ∧ addEvmLogHandler runningProcCex "0xAB" none none 4
        = Except.error configErrMsg := by
  have h := processor_c9 runningProcCex rfl
  exact ⟨rfl, h.1 _, h.2.2.1 _, h.2.2.2.1 _, h.2.2.2.2.2.1 _ _,
    h.2.2.2.2.2.2.2.1 _ _ _, h.2.2.2.2.2.2.2.2.1 _ _ _ _,
    h.2.2.2.2.2.2.2.2.2.1 _ _ _ _⟩

/-- C10 (implicit): `addEvmLogHandler` and
`addContractsContractEmittedHandler` store the registration under the
lowercased contract address (so two spellings differing only in case
register identically), while `getEvmLogHandlers` looks up the event's
reported address verbatim; consequently a registration under `s` fires
exactly for events whose reported address equals `s.toLowerCase()`. -/
theorem processor_c10 {H : Type} (p : SubstrateProcessor H)
    (addr : String) (range : Option Range)
    (filter : Option (List (Option EvmTopicFilter))) (fn : H)
    (s : String) (entries : List (EvmLogHandlerEntry H)) (e : SEvent) :
    (p.running = false →
      addEvmLogHandler p addr range filter fn
        = Except.ok { p with hooks := { p.hooks with
            evmLog := p.hooks.evmLog
              ++ [{ handler := fn, contractAddress := addr.toLower
                    filter := filter, range := range }] } })
    ∧ (p.running = false →
        addContractsContractEmittedHandler p addr range fn
          = Except.ok { p with hooks := { p.hooks with
              contractsContractEmitted := p.hooks.contractsContractEmitted
                ++ [{ handler := fn, contractAddress := addr.toLower
                      range := range }] } })
    ∧ (∀ addr2, addr.toLower = addr2.toLower →
        addEvmLogHandler p addr range filter fn
          = addEvmLogHandler p addr2 range filter fn)
    ∧ (e.name = "EVM.Log" → evmContractAddress e ≠ s.toLower →
        getEvmLogHandlers [(s.toLower, entries)] e = [])
    ∧ (e.name = "EVM.Log" → evmContractAddress e = s.toLower →
        getEvmLogHandlers [(s.toLower, entries)] e
          = (entries.filter (fun en => evmHandlerMatches en e.topics)).map
              (fun en => en.handler)) := by
  have hok : p.running = false → assertNotRunning p = Except.ok () := by
    intro hr
    unfold assertNotRunning
    rw [if_neg (by rw [hr]; exact Bool.false_ne_true)]
  refine ⟨?_, ?_, ?_, ?_, ?_⟩
  · intro hr
    simp only [addEvmLogHandler, hok hr]
  · intro hr
    simp only [addContractsContractEmittedHandler, hok hr]
  · intro addr2 hlow
    unfold addEvmLogHandler
    rw [hlow]
  · intro hn hne
    rw [getEvmLogHandlers_eq, if_pos hn]
    have hb : (s.toLower == evmContractAddress e) = false := by
      rw [beq_eq_false_iff_ne]
      exact fun hc => hne hc.symm
    have hl : lookupA [(s.toLower, entries)] (evmContractAddress e) = none := by
      simp [lookupA, List.find?, hb]
    rw [hl]
    rfl
  · intro hn heq
    rw [getEvmLogHandlers_eq, if_pos hn]
    have hb : (s.toLower == evmContractAddress e) = true := by
      rw [beq_iff_eq]
      exact heq.symm
    have hl : lookupA [(s.toLower, entries)] (evmContractAddress e)
        = some entries := by
      simp [lookupA, List.find?, hb]
    rw [hl]
    rfl
